import Mathlib

/-!
# BiEntropy: a shallow embedding of `src/ext/bientropy.c`

The C sources implement two order/disorder scores of a finite bit string, BiEn
and TBiEn, on top of GMP.  This development embeds

* `mpz_bin` (the pair of an `mpz_t` and an `unsigned` length, `bientropy.h`),
* `mpz_bin_d`, `mpz_bin_d_k` (the binary derivative and its `k`-fold iterate),
* `bien`, `tbien` (the two weighted averages of Shannon entropies),
* the reference table of `demo.c`,
* `bientropy_wrapper` (the Python adapter of `bientropymodule.c`).

Conventions of the embedding.

* An `mpz_t` holding a bit string is a natural number: every place of the
  repository that fills one (`mpz_set_ui`, `mpz_import`) produces a
  non-negative value.
* `unsigned` is a natural number below `UINT_MOD = 2 ^ 32`; the subtractions
  and additions the C code performs on it are written with their wrap-around
  at `UINT_MOD` made explicit (`usub`, `uadd`).
* `double` and `mpf_t` arithmetic is read as exact real arithmetic.  The two
  places where GMP stops the process are kept as faults: `mpf_set_d` on a value
  that is not finite (GMP's invalid-operation handler) and `mpf_ui_div` by zero
  (GMP's divide-by-zero handler).
-/

namespace BiEntropy

/-! ## Data model -/

/-- Number of values of the C type `unsigned`. -/
def UINT_MOD : Nat := 2 ^ 32

/-- The C expression `a - b` on `unsigned` operands (both below `UINT_MOD`):
the difference, taken modulo `UINT_MOD`, so a negative difference wraps around. -/
def usub (a b : Nat) : Nat := if b ≤ a then a - b else a + UINT_MOD - b

/-- The C expression `a + b` on `unsigned` operands. -/
def uadd (a b : Nat) : Nat := (a + b) % UINT_MOD

/-- The struct `mpz_bin_struct` of `bientropy.h`: an integer and a bit length. -/
structure mpz_bin where
  i : Nat
  len : Nat
deriving DecidableEq, Repr

/-- The ways GMP stops the computation. -/
inductive GmpFault where
  | divideByZero
  | invalidOperation
deriving DecidableEq, Repr

/-! ## The GMP integer primitives used by the source -/

/-- GMP `mpz_clrbit` on a non-negative integer: bit `bit` is set to zero
(the integer is masked with the complement of `2 ^ bit`). -/
def mpz_clrbit (a : Nat) (bit : Nat) : Nat := a ^^^ (a &&& 2 ^ bit)

/-- GMP `mpz_tdiv_q_2exp`: the quotient of the division by `2 ^ k`. -/
def mpz_tdiv_q_2exp (b : Nat) (k : Nat) : Nat := b / 2 ^ k

/-- GMP `mpz_xor`. -/
def mpz_xor (a b : Nat) : Nat := a ^^^ b

/-- Set bits of `a`, one binary digit per step, for at most `fuel` digits. -/
def popcountAux : Nat → Nat → Nat
  | 0, _ => 0
  | fuel + 1, a => if a = 0 then 0 else a % 2 + popcountAux fuel (a / 2)

/-- GMP `mpz_popcount` on a non-negative integer: the number of set bits.
A number `a` has at most `a` binary digits, so the fuel `a` is never used up
(`mpz_popcount_eq_sum` below). -/
def mpz_popcount (a : Nat) : Nat := popcountAux a a

/-! ## The binary derivative (`bientropy.c`, lines 38-87) -/

/-- The function `mpz_bin_d` of `bientropy.c`. -/
def mpz_bin_d (x : mpz_bin) : mpz_bin :=
  let a := mpz_clrbit x.i (usub x.len 1)
  let b := mpz_tdiv_q_2exp x.i 1
  { i := mpz_xor a b, len := usub x.len 1 }

/-- The function `mpz_bin_d_k` of `bientropy.c`. -/
def mpz_bin_d_k (x : mpz_bin) : Nat → mpz_bin
  | 0 => x
  | k + 1 => mpz_bin_d (mpz_bin_d_k x k)

/-! ## Floating point, read over the reals -/

/-- The C operator `/` on doubles: `none` is a result that is not finite
(an infinity or a NaN). -/
noncomputable def ddiv (a b : ℝ) : Option ℝ :=
  if b = 0 then none else some (a / b)

/-- The C library function `log2`: it is finite on positive arguments only. -/
noncomputable def log2 (x : ℝ) : Option ℝ :=
  if 0 < x then some (Real.logb 2 x) else none

/-- GMP `mpf_set_d`: a double that is not finite raises GMP's
invalid-operation fault. -/
def mpf_set_d (d : Option ℝ) : Except GmpFault ℝ :=
  match d with
  | some v => .ok v
  | none => .error .invalidOperation

/-- GMP `mpf_ui_div`: `u / v`, and GMP's divide-by-zero fault when `v` is zero. -/
noncomputable def mpf_ui_div (u : ℝ) (v : ℝ) : Except GmpFault ℝ :=
  if v = 0 then .error .divideByZero else .ok (u / v)

/-! ## The entropy term and the two aggregators (`bientropy.c`, lines 98-235) -/

/-- The double `e + g` of one loop iteration (lines 113-124 of `bien`, the same
text at lines 187-198 of `tbien`): `ones` is the `unsigned` that receives
`mpz_popcount(s_k.i)`, `p` is `((double)ones)/s_k.len`. -/
noncomputable def entropy_term (s_k : mpz_bin) : Option ℝ :=
  let ones := mpz_popcount s_k.i % UINT_MOD
  match ddiv (ones : ℝ) (s_k.len : ℝ) with
  | none => none
  | some p =>
    let e : Option ℝ := if p = 0 then some 0 else (log2 p).map (fun l => -p * l)
    let g : Option ℝ :=
      if p = 1 then some 0 else (log2 (1 - p)).map (fun l => -1 * (1 - p) * l)
    match e, g with
    | some ev, some gv => some (ev + gv)
    | _, _ => none

/-- The `for` loop of `bien` (lines 111-142) with `m` iterations left, the
counter at `k`, the current string `s_k` and the accumulator `t`.  The counter
stays below the `unsigned` bound of the loop, so `k++` is `k + 1`. -/
noncomputable def bien_loop : Nat → Nat → mpz_bin → ℝ → Except GmpFault ℝ
  | 0, _, _, t => .ok t
  | m + 1, k, s_k, t =>
    match mpf_set_d (entropy_term s_k) with
    | .error f => .error f
    | .ok t_k => bien_loop m (k + 1) (mpz_bin_d s_k) (t + t_k * 2 ^ k)

/-- The function `bien` of `bientropy.c`: the loop runs while `k < s.len - 1`,
then the sum is multiplied by `1 / (2 ^ (s.len - 1) - 1)`. -/
noncomputable def bien (s : mpz_bin) : Except GmpFault ℝ :=
  match bien_loop (usub s.len 1) 0 s 0 with
  | .error f => .error f
  | .ok t =>
    match mpf_ui_div 1 (1 * 2 ^ (usub s.len 1) - 1) with
    | .error f => .error f
    | .ok result => .ok (result * t)

/-- The `for` loop of `tbien` (lines 185-219): as `bien_loop`, with the weight
`l_k = log2(k+2)` and the second accumulator `l`; the result is `(t, l)`. -/
noncomputable def tbien_loop : Nat → Nat → mpz_bin → ℝ → ℝ → Except GmpFault (ℝ × ℝ)
  | 0, _, _, t, l => .ok (t, l)
  | m + 1, k, s_k, t, l =>
    match mpf_set_d (log2 ((uadd k 2 : Nat) : ℝ)) with
    | .error f => .error f
    | .ok l_k =>
      match mpf_set_d (entropy_term s_k) with
      | .error f => .error f
      | .ok t_k => tbien_loop m (k + 1) (mpz_bin_d s_k) (t + t_k * l_k) (l + l_k)

/-- The function `tbien` of `bientropy.c`: the loop, then `(1 / l) * t`. -/
noncomputable def tbien (s : mpz_bin) : Except GmpFault ℝ :=
  match tbien_loop (usub s.len 1) 0 s 0 0 with
  | .error f => .error f
  | .ok (t, l) =>
    match mpf_ui_div 1 l with
    | .error f => .error f
    | .ok result => .ok (result * t)

/-! ## The specification side -/

/-- The binary Shannon entropy `H(p) = -p*log2(p) - (1-p)*log2(1-p)`, with
`H(0) = H(1) = 0`. -/
noncomputable def shannonH (p : ℝ) : ℝ :=
  if p = 0 ∨ p = 1 then 0 else -p * Real.logb 2 p - (1 - p) * Real.logb 2 (1 - p)

/-- The set-bit count as an iteration reads it, an `unsigned`. -/
def ones (s : mpz_bin) : Nat := mpz_popcount s.i % UINT_MOD

/-- The density `p = ones / len` of an iteration is a number of `[0, 1]`: the
length is not zero and the count does not exceed it. -/
def DensityOk (s : mpz_bin) : Prop := 0 < s.len ∧ ones s ≤ s.len

instance decidableDensityOk (s : mpz_bin) : Decidable (DensityOk s) :=
  inferInstanceAs (Decidable (0 < s.len ∧ ones s ≤ s.len))

/-- The entropy of link `k` of the derivative chain of `s`, from the count and
the length an iteration reads. -/
noncomputable def chain_entropy (s : mpz_bin) (k : Nat) : ℝ :=
  shannonH ((ones (mpz_bin_d_k s k) : ℝ) / ((mpz_bin_d_k s k).len : ℝ))

/-- The power-law weighted average over the chain of `s`, whatever the value. -/
noncomputable def bien_chain (s : mpz_bin) : ℝ :=
  (∑ k in Finset.range (s.len - 1), chain_entropy s k * 2 ^ k) / (2 ^ (s.len - 1) - 1)

/-- The sum `L` of the weights `log2(k+2)` for `k = 0..n-2`. -/
noncomputable def tbien_L (n : Nat) : ℝ :=
  ∑ k in Finset.range (n - 1), Real.logb 2 ((k : ℝ) + 2)

/-- The logarithmically weighted average over the chain of `s`, whatever the value. -/
noncomputable def tbien_chain (s : mpz_bin) : ℝ :=
  (∑ k in Finset.range (s.len - 1), chain_entropy s k * Real.logb 2 ((k : ℝ) + 2))
    / tbien_L s.len

/-- BiEn as the specification states it: the sum over `k = 0..n-2` of
`H(popcount(D^k s) / (n-k)) * 2^k`, divided by `2^(n-1) - 1`. -/
noncomputable def bien_spec (s : mpz_bin) : ℝ :=
  (∑ k in Finset.range (s.len - 1),
    shannonH ((mpz_popcount (mpz_bin_d_k s k).i : ℝ) / ((s.len - k : Nat) : ℝ)) * 2 ^ k)
    / (2 ^ (s.len - 1) - 1)

/-- The numerator `T` of TBiEn as the specification states it: the sum over
`k = 0..n-2` of `H(popcount(D^k s) / (n-k)) * log2(k+2)`. -/
noncomputable def tbien_T (s : mpz_bin) : ℝ :=
  ∑ k in Finset.range (s.len - 1),
    shannonH ((mpz_popcount (mpz_bin_d_k s k).i : ℝ) / ((s.len - k : Nat) : ℝ))
      * Real.logb 2 ((k : ℝ) + 2)

/-- TBiEn as the specification states it: `T / L`. -/
noncomputable def tbien_spec (s : mpz_bin) : ℝ := tbien_T s / tbien_L s.len

/-- The bit string stays within its declared length: the invariant of `BitString`. -/
def InRange (s : mpz_bin) : Prop := s.i < 2 ^ s.len

instance decidableInRange (s : mpz_bin) : Decidable (InRange s) :=
  inferInstanceAs (Decidable (s.i < 2 ^ s.len))

/-! ## The reference table of `demo.c` (lines 48-74) -/

/-- The array `inputs` of `demo.c`. -/
def inputs : List Nat :=
  [0x0,  0x1,  0x2,  0x3,
   0x0,  0x3,  0x1,  0x2,
   0xc,  0xf,  0xd,  0xe,
   0x4,  0x7,  0x5,  0x6,
   0x8,  0xb,  0x9,  0xa,
   0x00, 0x0f, 0x05, 0x0a]

/-- The array `biens` of `demo.c`: the expected BiEn of each input. -/
def biens : List ℚ :=
  [0.0,   1.0,   1.0,   0.0,
   0.000, 0.405, 0.950, 0.950,
   0.405, 0.000, 0.950, 0.950,
   0.950, 0.950, 0.143, 0.405,
   0.950, 0.950, 0.405, 0.143,
   0.000, 0.107, 0.230, 0.230]

/-- The array `tbiens` of `demo.c`: the expected TBiEn of each input. -/
def tbiens : List ℚ :=
  [0.0,   1.0,   1.0,   0.0,
   0.000, 0.536, 0.931, 0.931,
   0.536, 0.000, 0.931, 0.931,
   0.931, 0.931, 0.218, 0.536,
   0.931, 0.931, 0.536, 0.218,
   0.000, 0.394, 0.556, 0.556]

/-- The array `lens` of `demo.c`. -/
def lens : List Nat :=
  [2, 2, 2, 2,
   4, 4, 4, 4,
   4, 4, 4, 4,
   4, 4, 4, 4,
   4, 4, 4, 4,
   8, 8, 8, 8]

/-- The bit string the loop of `demo.c` builds at index `i`
(`mpz_set_ui(b.i, inputs[i]); b.len = lens[i];`). -/
def demo_row (i : Nat) : mpz_bin := ⟨inputs.getD i 0, lens.getD i 0⟩

/-- The expected BiEn of row `i`, as a real number. -/
noncomputable def demo_bien (i : Nat) : ℝ := ((biens.getD i 0 : ℚ) : ℝ)

/-- The expected TBiEn of row `i`, as a real number. -/
noncomputable def demo_tbien (i : Nat) : ℝ := ((tbiens.getD i 0 : ℚ) : ℝ)

/-! ## Bit strings read backwards -/

/-- The `n` lowest bits of `v` in reverse order: bit `j` of the result is
bit `n - 1 - j` of `v`. -/
def bit_reverse : Nat → Nat → Nat
  | 0, _ => 0
  | n + 1, v => 2 ^ n * (v % 2) + bit_reverse n (v / 2)

/-- The bit string `s` read backwards. -/
def mpz_bin_rev (s : mpz_bin) : mpz_bin := ⟨bit_reverse s.len s.i, s.len⟩

/-- The bit string `s` with every bit flipped. -/
def mpz_bin_compl (s : mpz_bin) : mpz_bin := ⟨2 ^ s.len - 1 - s.i, s.len⟩

/-! ## The `for` loops as machines -/

/-- A loop `for (...; cond; ...) body` run for at most `fuel` passes, the
condition being tested before each pass: the state at the exit and the number
of passes made, or `none` when the fuel is used up first. -/
def for_loop {σ : Type} (cond : σ → Bool) (body : σ → Except GmpFault σ) :
    Nat → σ → Nat → Except GmpFault (Option (σ × Nat))
  | 0, st, passes => if cond st then .ok none else .ok (some (st, passes))
  | fuel + 1, st, passes =>
    if cond st then
      match body st with
      | .error f => .error f
      | .ok st' => for_loop cond body fuel st' (passes + 1)
    else .ok (some (st, passes))

/-- The loop condition `k < s.len - 1` of `bien` and `tbien`. -/
def loop_cond (s : mpz_bin) (k : Nat) : Bool := decide (k < usub s.len 1)

/-- One pass of the loop of `bien` on the variables `(k, s_k, t)`: the body
(lines 113-141), then `k++`. -/
noncomputable def bien_body (st : Nat × mpz_bin × ℝ) : Except GmpFault (Nat × mpz_bin × ℝ) :=
  match mpf_set_d (entropy_term st.2.1) with
  | .error f => .error f
  | .ok t_k => .ok (uadd st.1 1, mpz_bin_d st.2.1, st.2.2 + t_k * 2 ^ st.1)

/-- One pass of the loop of `tbien` on the variables `(k, s_k, t, l)`: the body
(lines 187-218), then `k++`. -/
noncomputable def tbien_body (st : Nat × mpz_bin × ℝ × ℝ) :
    Except GmpFault (Nat × mpz_bin × ℝ × ℝ) :=
  match mpf_set_d (log2 ((uadd st.1 2 : Nat) : ℝ)) with
  | .error f => .error f
  | .ok l_k =>
    match mpf_set_d (entropy_term st.2.1) with
    | .error f => .error f
    | .ok t_k => .ok (uadd st.1 1, mpz_bin_d st.2.1, st.2.2.1 + t_k * l_k, st.2.2.2 + l_k)

/-- The loop of `bien` on input `s`, from the initial values `k = 0`,
`s_k = s`, `t = 0`. -/
noncomputable def bien_for (s : mpz_bin) (fuel : Nat) :
    Except GmpFault (Option ((Nat × mpz_bin × ℝ) × Nat)) :=
  for_loop (fun st => loop_cond s st.1) bien_body fuel (0, s, 0) 0

/-- The loop of `tbien` on input `s`, from the initial values `k = 0`,
`s_k = s`, `t = 0`, `l = 0`. -/
noncomputable def tbien_for (s : mpz_bin) (fuel : Nat) :
    Except GmpFault (Option ((Nat × mpz_bin × ℝ × ℝ) × Nat)) :=
  for_loop (fun st => loop_cond s st.1) tbien_body fuel (0, s, 0, 0) 0

/-! ## The Python adapter (`bientropymodule.c`, lines 43-140)

Sizes (`PyString_Size`, `PyObject_Size`) are `Py_ssize_t` values, here
integers: no object is large enough for their products by 8 to overflow.  The
model covers the objects whose `len()` succeeds. -/

/-- The ways the wrapper returns `NULL`: the two exceptions it sets itself and
the exception a failing `tobytes()` call leaves pending. -/
inductive PyErr where
  | TypeError
  | ValueError
  | Raised
deriving DecidableEq, Repr

/-- What the wrapper can tell about its argument: a bytes object, an object
with a `tobytes` attribute (the call raises, returns something that is not a
bytes object, or returns bytes) and a length, or anything else. -/
inductive PyObj where
  | bytes (b : List (Fin 256))
  | bitseq (tobytes : Option (Option (List (Fin 256)))) (size : Nat)
  | other

/-- GMP `mpz_import` with `order = 1`, `size = 1`, `endian = 1`, `nails = 0`:
the bytes are the digits in base 256, most significant first. -/
def mpz_import (data : List (Fin 256)) : Nat :=
  data.foldl (fun acc x => acc * 256 + x.val) 0

/-- The conversion of a `Py_ssize_t` value to `unsigned`. -/
def to_unsigned (z : Int) : Nat := (z % (UINT_MOD : Int)).toNat

/-- The function `bientropy_wrapper` of `bientropymodule.c`; `args` is `none`
when `PyArg_ParseTuple` fails, `f` is the C function called on the marshalled
string. -/
def bientropy_wrapper {α : Type} (f : mpz_bin → α) (args : Option PyObj) : Except PyErr α :=
  match args with
  | none => .error .TypeError
  | some in_obj =>
    let marshalled : Except PyErr mpz_bin :=
      match in_obj with
      | .bytes b => .ok ⟨mpz_import b, to_unsigned ((b.length : Int) * 8)⟩
      | .bitseq none _ => .error .Raised
      | .bitseq (some none) _ => .error .ValueError
      | .bitseq (some (some bytestr)) size =>
        let slack := to_unsigned ((bytestr.length : Int) * 8 - (size : Int))
        if bytestr.length * 8 < size ∨ bytestr.length > size / 8 + 1 then
          .error .TypeError
        else
          .ok ⟨mpz_tdiv_q_2exp (mpz_import bytestr) slack, to_unsigned (size : Int)⟩
      | .other => .error .TypeError
    match marshalled with
    | .error e => .error e
    | .ok inp => if inp.len = 0 then .error .ValueError else .ok (f inp)

/-! ## Bit-level lemmas -/

theorem usub_one_eq {n : Nat} (h1 : 1 ≤ n) : usub n 1 = n - 1 := by
  unfold usub
  rw [if_pos h1]

theorem uadd_eq {a b : Nat} (h : a + b < UINT_MOD) : uadd a b = a + b := by
  unfold uadd
  exact Nat.mod_eq_of_lt h

theorem testBit_mpz_clrbit (a bit j : Nat) :
    (mpz_clrbit a bit).testBit j = (a.testBit j && decide (j ≠ bit)) := by
  unfold mpz_clrbit
  rw [Nat.testBit_xor, Nat.testBit_and, Nat.testBit_two_pow]
  by_cases h : bit = j
  · subst h; cases a.testBit bit <;> simp
  · have h2 : j ≠ bit := fun e => h e.symm
    cases a.testBit j <;> simp [h, h2]

theorem testBit_mpz_bin_d (x : mpz_bin) (j : Nat) :
    (mpz_bin_d x).i.testBit j
      = ((x.i.testBit j && decide (j ≠ usub x.len 1)) ^^ x.i.testBit (j + 1)) := by
  unfold mpz_bin_d mpz_xor mpz_tdiv_q_2exp
  simp only [pow_one]
  rw [Nat.testBit_xor, testBit_mpz_clrbit, Nat.testBit_div_two]

theorem mpz_bin_d_len (x : mpz_bin) : (mpz_bin_d x).len = usub x.len 1 := rfl

theorem mpz_bin_d_inRange (x : mpz_bin) (h1 : 1 ≤ x.len)
    (hx : InRange x) : InRange (mpz_bin_d x) := by
  unfold InRange at *
  rw [mpz_bin_d_len, usub_one_eq h1]
  apply Nat.lt_pow_two_of_testBit
  intro j hj
  rw [testBit_mpz_bin_d, usub_one_eq h1]
  have hhi : x.i.testBit (j + 1) = false :=
    Nat.testBit_lt_two_pow (lt_of_lt_of_le hx (Nat.pow_le_pow_right (by norm_num) (by omega)))
  rw [hhi]
  by_cases hj2 : j = x.len - 1
  · simp [hj2]
  · have : x.i.testBit j = false :=
      Nat.testBit_lt_two_pow (lt_of_lt_of_le hx (Nat.pow_le_pow_right (by norm_num) (by omega)))
    simp [this]

theorem popcountAux_zero (fuel : Nat) : popcountAux fuel 0 = 0 := by
  cases fuel <;> simp [popcountAux]

theorem popcountAux_fuel (a : Nat) : ∀ fuel, a ≤ fuel → popcountAux fuel a = popcountAux a a := by
  induction a using Nat.strong_induction_on with
  | _ a ih =>
    intro fuel hf
    rcases Nat.eq_zero_or_pos a with h0 | hpos
    · subst h0; rw [popcountAux_zero, popcountAux_zero]
    · obtain ⟨f, rfl⟩ : ∃ f, fuel = f + 1 := ⟨fuel - 1, by omega⟩
      obtain ⟨b, rfl⟩ : ∃ b, a = b + 1 := ⟨a - 1, by omega⟩
      have hne : b + 1 ≠ 0 := by omega
      simp only [popcountAux, hne, if_false]
      have hlt : (b + 1) / 2 < b + 1 := Nat.div_lt_self (by omega) (by norm_num)
      rw [ih _ hlt f (by omega), ih _ hlt b (by omega)]

/-- The recursion `mpz_popcount` obeys: the lowest digit plus the count of the rest. -/
theorem mpz_popcount_rec (a : Nat) : mpz_popcount a = a % 2 + mpz_popcount (a / 2) := by
  unfold mpz_popcount
  rcases Nat.eq_zero_or_pos a with h0 | hpos
  · subst h0; simp [popcountAux_zero]
  · obtain ⟨b, rfl⟩ : ∃ b, a = b + 1 := ⟨a - 1, by omega⟩
    have hne : b + 1 ≠ 0 := by omega
    simp only [popcountAux, hne, if_false]
    rw [popcountAux_fuel ((b + 1) / 2) b (by omega)]

theorem mpz_popcount_zero : mpz_popcount 0 = 0 := popcountAux_zero 0

/-- The fuel of `mpz_popcount` is enough: the result is the number of bit
positions below `n` at which `a` has a one, for every `n` with `a < 2 ^ n`. -/
theorem mpz_popcount_eq_sum : ∀ (n a : Nat), a < 2 ^ n →
    mpz_popcount a = ∑ j in Finset.range n, (if a.testBit j then 1 else 0) := by
  intro n
  induction n with
  | zero =>
    intro a h
    have : a = 0 := by simpa using h
    subst this; simp [mpz_popcount_zero]
  | succ n ih =>
    intro a h
    have h2 : a / 2 < 2 ^ n := by
      rw [Nat.div_lt_iff_lt_mul (by norm_num)]
      rw [pow_succ] at h; exact h
    rw [mpz_popcount_rec, ih _ h2, Finset.sum_range_succ', add_comm]
    congr 1
    · apply Finset.sum_congr rfl
      intro j _
      rw [Nat.testBit_div_two]
    · rw [Nat.testBit_zero]
      rcases Nat.mod_two_eq_zero_or_one a with h | h <;> simp [h]

theorem mpz_popcount_le (n a : Nat) (h : a < 2 ^ n) : mpz_popcount a ≤ n := by
  rw [mpz_popcount_eq_sum n a h]
  calc ∑ j in Finset.range n, (if a.testBit j then 1 else 0)
      ≤ ∑ _j in Finset.range n, 1 := Finset.sum_le_sum (fun j _ => by split <;> omega)
    _ = n := by simp

theorem mpz_popcount_ones (n : Nat) : mpz_popcount (2 ^ n - 1) = n := by
  rw [mpz_popcount_eq_sum n _ (Nat.sub_lt (Nat.two_pow_pos n) (by norm_num))]
  rw [Finset.sum_congr rfl (g := fun _ => 1)]
  · simp
  · intro j hj
    rw [Nat.testBit_two_pow_sub_one]
    simp [Finset.mem_range.mp hj]

/-! ## The entropy term -/

theorem entropy_term_of_densityOk (s : mpz_bin) (h : DensityOk s) :
    entropy_term s = some (shannonH ((ones s : ℝ) / (s.len : ℝ))) := by
  obtain ⟨hlen, hle⟩ := h
  have hlenR : (0 : ℝ) < (s.len : ℝ) := by exact_mod_cast hlen
  have hne : (s.len : ℝ) ≠ 0 := ne_of_gt hlenR
  have hp0 : (0 : ℝ) ≤ (ones s : ℝ) / (s.len : ℝ) := by positivity
  have hp1 : (ones s : ℝ) / (s.len : ℝ) ≤ 1 := by
    rw [div_le_one hlenR]; exact_mod_cast hle
  unfold entropy_term
  simp only [ddiv, hne, if_false]
  change (match (if (ones s : ℝ) / (s.len : ℝ) = 0 then some (0 : ℝ)
      else (log2 ((ones s : ℝ) / (s.len : ℝ))).map
        (fun l => -((ones s : ℝ) / (s.len : ℝ)) * l)),
    (if (ones s : ℝ) / (s.len : ℝ) = 1 then some (0 : ℝ)
      else (log2 (1 - (ones s : ℝ) / (s.len : ℝ))).map
        (fun l => -1 * (1 - (ones s : ℝ) / (s.len : ℝ)) * l)) with
    | some ev, some gv => some (ev + gv)
    | _, _ => none) = _
  generalize (ones s : ℝ) / (s.len : ℝ) = p at hp0 hp1
  by_cases h0 : p = 0
  · subst h0
    simp [log2, shannonH]
  · by_cases h1 : p = 1
    · subst h1
      simp [log2, shannonH]
    · have hpos : 0 < p := lt_of_le_of_ne hp0 (Ne.symm h0)
      have hlt : 0 < 1 - p := by
        have : p < 1 := lt_of_le_of_ne hp1 h1
        linarith
      simp only [log2, h0, h1, hpos, hlt, if_true, if_false, Option.map_some', shannonH,
        or_self]
      congr 1
      ring

theorem entropy_term_of_not_densityOk (s : mpz_bin) (h : ¬ DensityOk s) :
    entropy_term s = none := by
  unfold entropy_term
  by_cases hlen : s.len = 0
  · simp [ddiv, hlen]
  · have hlen0 : 0 < s.len := Nat.pos_of_ne_zero hlen
    have hgt : s.len < ones s := by
      by_contra hc
      exact h ⟨hlen0, by omega⟩
    have hlenR : (0 : ℝ) < (s.len : ℝ) := by exact_mod_cast hlen0
    have hne : (s.len : ℝ) ≠ 0 := ne_of_gt hlenR
    have hp : 1 < (ones s : ℝ) / (s.len : ℝ) := by
      rw [one_lt_div hlenR]; exact_mod_cast hgt
    simp only [ddiv, hne, if_false]
    change (match (if (ones s : ℝ) / (s.len : ℝ) = 0 then some (0 : ℝ)
        else (log2 ((ones s : ℝ) / (s.len : ℝ))).map
          (fun l => -((ones s : ℝ) / (s.len : ℝ)) * l)),
      (if (ones s : ℝ) / (s.len : ℝ) = 1 then some (0 : ℝ)
        else (log2 (1 - (ones s : ℝ) / (s.len : ℝ))).map
          (fun l => -1 * (1 - (ones s : ℝ) / (s.len : ℝ)) * l)) with
      | some ev, some gv => some (ev + gv)
      | _, _ => none) = _
    generalize (ones s : ℝ) / (s.len : ℝ) = p at hp
    have h1 : p ≠ 1 := ne_of_gt hp
    have hneg : ¬ (0 : ℝ) < 1 - p := by linarith
    simp only [log2, h1, hneg, if_false, Option.map_none']
    split <;> simp_all

/-! ## The derivative chain -/

theorem mpz_bin_d_k_succ_left (s : mpz_bin) (j : Nat) :
    mpz_bin_d_k (mpz_bin_d s) j = mpz_bin_d_k s (j + 1) := by
  induction j with
  | zero => rfl
  | succ j ih => simp only [mpz_bin_d_k] at ih ⊢; rw [ih]

/-- Along the chain of an in-range string the length drops by one per step and
the value stays in range. -/
theorem chain_invariant (s : mpz_bin) (hs : InRange s) :
    ∀ k, k < s.len →
      (mpz_bin_d_k s k).len = s.len - k ∧ InRange (mpz_bin_d_k s k) := by
  intro k
  induction k with
  | zero => intro _; exact ⟨rfl, hs⟩
  | succ k ih =>
    intro hk
    obtain ⟨hl, hr⟩ := ih (by omega)
    have h1 : 1 ≤ (mpz_bin_d_k s k).len := by omega
    refine ⟨?_, mpz_bin_d_inRange _ h1 hr⟩
    change (mpz_bin_d (mpz_bin_d_k s k)).len = _
    rw [mpz_bin_d_len, usub_one_eq h1, hl]
    omega

theorem ones_eq_popcount (s : mpz_bin) (hu : s.len < UINT_MOD) (hs : InRange s) :
    ones s = mpz_popcount s.i := by
  unfold ones
  exact Nat.mod_eq_of_lt (lt_of_le_of_lt (mpz_popcount_le _ _ hs) hu)

theorem densityOk_of_inRange (s : mpz_bin) (h1 : 1 ≤ s.len) (hu : s.len < UINT_MOD)
    (hs : InRange s) : DensityOk s := by
  refine ⟨h1, ?_⟩
  rw [ones_eq_popcount s hu hs]
  exact mpz_popcount_le _ _ hs

theorem chain_densityOk (s : mpz_bin) (hu : s.len < UINT_MOD) (hs : InRange s) :
    ∀ k, k < s.len → DensityOk (mpz_bin_d_k s k) := by
  intro k hk
  obtain ⟨hl, hr⟩ := chain_invariant s hs k hk
  exact densityOk_of_inRange _ (by omega) (by omega) hr

/-! ## The loops -/

theorem bien_loop_ok : ∀ (m k : Nat) (s : mpz_bin) (t : ℝ),
    (∀ j, j < m → DensityOk (mpz_bin_d_k s j)) →
    bien_loop m k s t = .ok (t + ∑ j in Finset.range m,
      shannonH ((ones (mpz_bin_d_k s j) : ℝ) / ((mpz_bin_d_k s j).len : ℝ)) * 2 ^ (k + j)) := by
  intro m
  induction m with
  | zero => intro k s t _; simp [bien_loop]
  | succ m ih =>
    intro k s t h
    have h0 : DensityOk s := h 0 (by omega)
    have hrest : ∀ j, j < m → DensityOk (mpz_bin_d_k (mpz_bin_d s) j) := by
      intro j hj
      rw [mpz_bin_d_k_succ_left]
      exact h (j + 1) (by omega)
    simp only [bien_loop, entropy_term_of_densityOk s h0, mpf_set_d]
    rw [ih (k + 1) (mpz_bin_d s) _ hrest, Finset.sum_range_succ']
    congr 1
    simp only [mpz_bin_d_k_succ_left, mpz_bin_d_k, add_zero]
    have : ∀ j, k + 1 + j = k + (j + 1) := fun j => by omega
    simp only [this]
    ring

theorem bien_loop_fault : ∀ (m k : Nat) (s : mpz_bin) (t : ℝ),
    (∃ j, j < m ∧ ¬ DensityOk (mpz_bin_d_k s j)) →
    bien_loop m k s t = .error .invalidOperation := by
  intro m
  induction m with
  | zero => intro k s t ⟨j, hj, _⟩; omega
  | succ m ih =>
    intro k s t ⟨j, hj, hbad⟩
    by_cases h0 : DensityOk s
    · simp only [bien_loop, entropy_term_of_densityOk s h0, mpf_set_d]
      apply ih
      rcases j with _ | j
      · exact absurd h0 hbad
      · exact ⟨j, by omega, by rw [mpz_bin_d_k_succ_left]; exact hbad⟩
    · simp only [bien_loop, entropy_term_of_not_densityOk s h0, mpf_set_d]

theorem log2_weight (k : Nat) (hk : k + 2 < UINT_MOD) :
    mpf_set_d (log2 ((uadd k 2 : Nat) : ℝ)) = .ok (Real.logb 2 ((k : ℝ) + 2)) := by
  rw [uadd_eq hk]
  have hpos : (0 : ℝ) < ((k + 2 : Nat) : ℝ) := by positivity
  simp only [log2, hpos, if_true, mpf_set_d]
  push_cast
  rfl

theorem log2_weight_fault (k : Nat) :
    (∃ v, mpf_set_d (log2 ((uadd k 2 : Nat) : ℝ)) = .ok v) ∨
      mpf_set_d (log2 ((uadd k 2 : Nat) : ℝ)) = .error .invalidOperation := by
  unfold log2
  split
  · exact Or.inl ⟨_, rfl⟩
  · exact Or.inr rfl

theorem tbien_loop_ok : ∀ (m k : Nat) (s : mpz_bin) (t l : ℝ),
    (∀ j, j < m → DensityOk (mpz_bin_d_k s j)) → k + m + 1 < UINT_MOD →
    tbien_loop m k s t l = .ok
      (t + ∑ j in Finset.range m,
        shannonH ((ones (mpz_bin_d_k s j) : ℝ) / ((mpz_bin_d_k s j).len : ℝ))
          * Real.logb 2 (((k + j : Nat) : ℝ) + 2),
       l + ∑ j in Finset.range m, Real.logb 2 (((k + j : Nat) : ℝ) + 2)) := by
  intro m
  induction m with
  | zero => intro k s t l _ _; simp [tbien_loop]
  | succ m ih =>
    intro k s t l h hk
    have h0 : DensityOk s := h 0 (by omega)
    have hrest : ∀ j, j < m → DensityOk (mpz_bin_d_k (mpz_bin_d s) j) := by
      intro j hj
      rw [mpz_bin_d_k_succ_left]
      exact h (j + 1) (by omega)
    simp only [tbien_loop, log2_weight k (by omega)]
    simp only [entropy_term_of_densityOk s h0, mpf_set_d]
    rw [ih (k + 1) (mpz_bin_d s) _ _ hrest (by omega), Finset.sum_range_succ',
      Finset.sum_range_succ' (fun j => Real.logb 2 (((k + j : Nat) : ℝ) + 2))]
    have : ∀ j, k + 1 + j = k + (j + 1) := fun j => by omega
    simp only [mpz_bin_d_k_succ_left, mpz_bin_d_k, add_zero, this]
    congr 1
    apply Prod.ext
    · dsimp only; ring
    · dsimp only; ring

theorem tbien_loop_fault : ∀ (m k : Nat) (s : mpz_bin) (t l : ℝ),
    (∃ j, j < m ∧ ¬ DensityOk (mpz_bin_d_k s j)) →
    tbien_loop m k s t l = .error .invalidOperation := by
  intro m
  induction m with
  | zero => intro k s t l ⟨j, hj, _⟩; omega
  | succ m ih =>
    intro k s t l ⟨j, hj, hbad⟩
    rcases log2_weight_fault k with ⟨v, hv⟩ | hv
    · by_cases h0 : DensityOk s
      · simp only [tbien_loop, hv]
        simp only [entropy_term_of_densityOk s h0, mpf_set_d]
        apply ih
        rcases j with _ | j
        · exact absurd h0 hbad
        · exact ⟨j, by omega, by rw [mpz_bin_d_k_succ_left]; exact hbad⟩
      · simp only [tbien_loop, hv]
        simp only [entropy_term_of_not_densityOk s h0, mpf_set_d]
    · simp only [tbien_loop, hv]

/-! ## The two aggregators on lengths of at least two -/

/-- The result of `bien` when every density along the chain is a number of `[0, 1]`. -/
theorem bien_of_chain_ok (s : mpz_bin) (hn : 2 ≤ s.len)
    (h : ∀ j, j < s.len - 1 → DensityOk (mpz_bin_d_k s j)) :
    bien s = .ok (bien_chain s) := by
  unfold bien_chain chain_entropy bien
  rw [usub_one_eq (by omega), bien_loop_ok _ 0 s 0 h]
  have hpow : (2 : ℝ) ≤ 2 ^ (s.len - 1) := by
    calc (2 : ℝ) = 2 ^ 1 := by norm_num
      _ ≤ 2 ^ (s.len - 1) := pow_le_pow_right₀ (by norm_num) (by omega)
  have hne : (1 : ℝ) * 2 ^ (s.len - 1) - 1 ≠ 0 := by
    rw [one_mul]; intro hc; linarith
  simp only [mpf_ui_div, hne, if_false, zero_add]
  congr 1
  rw [one_mul]
  ring

theorem bien_of_chain_fault (s : mpz_bin) (hn : 1 ≤ s.len)
    (h : ∃ j, j < s.len - 1 ∧ ¬ DensityOk (mpz_bin_d_k s j)) :
    bien s = .error .invalidOperation := by
  unfold bien
  rw [usub_one_eq hn, bien_loop_fault _ 0 s 0 h]

theorem logb_weight_nonneg (j : Nat) : 0 ≤ Real.logb 2 ((j : ℝ) + 2) := by
  apply Real.logb_nonneg (by norm_num)
  have : (0 : ℝ) ≤ (j : ℝ) := Nat.cast_nonneg j
  linarith

/-- The sum of the weights of `tbien` is at least the first weight, `log2(2) = 1`. -/
theorem log_weights_ge_one (m : Nat) (hm : 1 ≤ m) :
    (1 : ℝ) ≤ ∑ j in Finset.range m, Real.logb 2 ((j : ℝ) + 2) := by
  have h0 : Real.logb 2 (((0 : Nat) : ℝ) + 2) = 1 := by
    simp [Real.logb_self_eq_one]
  calc (1 : ℝ) = Real.logb 2 (((0 : Nat) : ℝ) + 2) := h0.symm
    _ ≤ ∑ j in Finset.range m, Real.logb 2 ((j : ℝ) + 2) :=
      Finset.single_le_sum (f := fun j : Nat => Real.logb 2 ((j : ℝ) + 2))
        (fun j _ => logb_weight_nonneg j) (Finset.mem_range.mpr (by omega))

/-- The result of `tbien` when every density along the chain is a number of `[0, 1]`. -/
theorem tbien_of_chain_ok (s : mpz_bin) (hn : 2 ≤ s.len) (hu : s.len < UINT_MOD)
    (h : ∀ j, j < s.len - 1 → DensityOk (mpz_bin_d_k s j)) :
    tbien s = .ok (tbien_chain s) := by
  unfold tbien_chain chain_entropy tbien_L tbien
  rw [usub_one_eq (by omega), tbien_loop_ok _ 0 s 0 0 h (by omega)]
  simp only [zero_add]
  have hL : (1 : ℝ) ≤ ∑ j in Finset.range (s.len - 1), Real.logb 2 ((j : ℝ) + 2) :=
    log_weights_ge_one _ (by omega)
  have hne : (∑ j in Finset.range (s.len - 1), Real.logb 2 ((j : ℝ) + 2)) ≠ 0 := by
    intro hc; rw [hc] at hL; linarith
  simp only [mpf_ui_div, hne, if_false]
  congr 1
  ring

theorem tbien_of_chain_fault (s : mpz_bin) (hn : 1 ≤ s.len)
    (h : ∃ j, j < s.len - 1 ∧ ¬ DensityOk (mpz_bin_d_k s j)) :
    tbien s = .error .invalidOperation := by
  unfold tbien
  rw [usub_one_eq hn, tbien_loop_fault _ 0 s 0 0 h]

/-! ## The specification's formulas on in-range strings -/

theorem spec_term_eq (s : mpz_bin) (hu : s.len < UINT_MOD) (hs : InRange s) (k : Nat)
    (hk : k < s.len) :
    chain_entropy s k
      = shannonH ((mpz_popcount (mpz_bin_d_k s k).i : ℝ) / ((s.len - k : Nat) : ℝ)) := by
  obtain ⟨hl, hr⟩ := chain_invariant s hs k hk
  unfold chain_entropy
  rw [ones_eq_popcount _ (by omega) hr, hl]

theorem bien_chain_eq_spec (s : mpz_bin) (hu : s.len < UINT_MOD) (hs : InRange s) :
    bien_chain s = bien_spec s := by
  unfold bien_chain bien_spec
  congr 1
  apply Finset.sum_congr rfl
  intro k hk
  rw [spec_term_eq s hu hs k (by have := Finset.mem_range.mp hk; omega)]

theorem tbien_chain_eq_spec (s : mpz_bin) (hu : s.len < UINT_MOD) (hs : InRange s) :
    tbien_chain s = tbien_spec s := by
  unfold tbien_chain tbien_spec tbien_T
  congr 1
  apply Finset.sum_congr rfl
  intro k hk
  rw [spec_term_eq s hu hs k (by have := Finset.mem_range.mp hk; omega)]

theorem bien_inRange (s : mpz_bin) (hn : 2 ≤ s.len) (hu : s.len < UINT_MOD) (hs : InRange s) :
    bien s = .ok (bien_spec s) := by
  rw [bien_of_chain_ok s hn (fun j hj => chain_densityOk s hu hs j (by omega)),
    bien_chain_eq_spec s hu hs]

theorem tbien_inRange (s : mpz_bin) (hn : 2 ≤ s.len) (hu : s.len < UINT_MOD) (hs : InRange s) :
    tbien s = .ok (tbien_spec s) := by
  rw [tbien_of_chain_ok s hn hu (fun j hj => chain_densityOk s hu hs j (by omega)),
    tbien_chain_eq_spec s hu hs]

/-! ## Bounds on the entropy -/

theorem shannonH_eq_binEntropy (p : ℝ) : shannonH p = Real.binEntropy p / Real.log 2 := by
  have hlog : Real.log 2 ≠ 0 := ne_of_gt (Real.log_pos (by norm_num))
  unfold shannonH
  by_cases h : p = 0 ∨ p = 1
  · rw [if_pos h]
    rcases h with h | h <;> subst h <;> simp
  · rw [if_neg h]
    unfold Real.binEntropy Real.logb
    rw [Real.log_inv, Real.log_inv]
    field_simp
    ring

theorem shannonH_nonneg (p : ℝ) (h0 : 0 ≤ p) (h1 : p ≤ 1) : 0 ≤ shannonH p := by
  rw [shannonH_eq_binEntropy]
  exact div_nonneg (Real.binEntropy_nonneg h0 h1) (le_of_lt (Real.log_pos (by norm_num)))

theorem shannonH_le_one (p : ℝ) : shannonH p ≤ 1 := by
  rw [shannonH_eq_binEntropy, div_le_one (Real.log_pos (by norm_num))]
  exact Real.binEntropy_le_log_two

theorem chain_entropy_nonneg (s : mpz_bin) (k : Nat) (h : DensityOk (mpz_bin_d_k s k)) :
    0 ≤ chain_entropy s k := by
  obtain ⟨hlen, hle⟩ := h
  have hlenR : (0 : ℝ) < ((mpz_bin_d_k s k).len : ℝ) := by exact_mod_cast hlen
  apply shannonH_nonneg
  · positivity
  · rw [div_le_one hlenR]; exact_mod_cast hle

theorem chain_entropy_le_one (s : mpz_bin) (k : Nat) : chain_entropy s k ≤ 1 :=
  shannonH_le_one _

theorem geom_two (m : Nat) : ∑ k in Finset.range m, (2 : ℝ) ^ k = 2 ^ m - 1 := by
  rw [geom_sum_eq (by norm_num) m]
  norm_num

theorem bien_chain_bounds (s : mpz_bin) (hn : 2 ≤ s.len)
    (h : ∀ j, j < s.len - 1 → DensityOk (mpz_bin_d_k s j)) :
    0 ≤ bien_chain s ∧ bien_chain s ≤ 1 := by
  have hpow : (2 : ℝ) ≤ 2 ^ (s.len - 1) := by
    calc (2 : ℝ) = 2 ^ 1 := by norm_num
      _ ≤ 2 ^ (s.len - 1) := pow_le_pow_right₀ (by norm_num) (by omega)
  have hden : (0 : ℝ) < 2 ^ (s.len - 1) - 1 := by linarith
  unfold bien_chain
  constructor
  · apply div_nonneg _ (le_of_lt hden)
    apply Finset.sum_nonneg
    intro k hk
    exact mul_nonneg (chain_entropy_nonneg s k (h k (Finset.mem_range.mp hk))) (by positivity)
  · rw [div_le_one hden, ← geom_two]
    apply Finset.sum_le_sum
    intro k _
    calc chain_entropy s k * 2 ^ k ≤ 1 * 2 ^ k :=
          mul_le_mul_of_nonneg_right (chain_entropy_le_one s k) (by positivity)
      _ = 2 ^ k := one_mul _

theorem tbien_chain_bounds (s : mpz_bin) (hn : 2 ≤ s.len)
    (h : ∀ j, j < s.len - 1 → DensityOk (mpz_bin_d_k s j)) :
    0 ≤ tbien_chain s ∧ tbien_chain s ≤ 1 := by
  have hL : (1 : ℝ) ≤ tbien_L s.len := log_weights_ge_one _ (by omega)
  have hden : (0 : ℝ) < tbien_L s.len := by linarith
  unfold tbien_chain
  constructor
  · apply div_nonneg _ (le_of_lt hden)
    apply Finset.sum_nonneg
    intro k hk
    exact mul_nonneg (chain_entropy_nonneg s k (h k (Finset.mem_range.mp hk)))
      (logb_weight_nonneg k)
  · rw [div_le_one hden]
    unfold tbien_L
    apply Finset.sum_le_sum
    intro k _
    calc chain_entropy s k * Real.logb 2 ((k : ℝ) + 2) ≤ 1 * Real.logb 2 ((k : ℝ) + 2) :=
          mul_le_mul_of_nonneg_right (chain_entropy_le_one s k) (logb_weight_nonneg k)
      _ = Real.logb 2 ((k : ℝ) + 2) := one_mul _

/-! ## Constant strings -/

theorem shannonH_zero : shannonH 0 = 0 := by simp [shannonH]

theorem shannonH_one : shannonH 1 = 0 := by simp [shannonH]

theorem mpz_bin_d_zero (n : Nat) : mpz_bin_d ⟨0, n⟩ = ⟨0, usub n 1⟩ := by
  simp [mpz_bin_d, mpz_clrbit, mpz_xor, mpz_tdiv_q_2exp]

theorem mpz_bin_d_k_zero (n k : Nat) : (mpz_bin_d_k ⟨0, n⟩ k).i = 0 := by
  induction k generalizing n with
  | zero => rfl
  | succ k ih => rw [← mpz_bin_d_k_succ_left, mpz_bin_d_zero]; exact ih _

theorem mpz_bin_d_all_ones (n : Nat) (hn : 1 ≤ n) :
    mpz_bin_d ⟨2 ^ n - 1, n⟩ = ⟨0, usub n 1⟩ := by
  have hi : (mpz_bin_d ⟨2 ^ n - 1, n⟩).i = 0 := by
    apply Nat.eq_of_testBit_eq
    intro j
    rw [testBit_mpz_bin_d, Nat.zero_testBit]
    simp only [Nat.testBit_two_pow_sub_one, usub_one_eq hn]
    by_cases h1 : j + 1 < n
    · have h2 : j < n := by omega
      have h3 : j ≠ n - 1 := by omega
      simp [h1, h2, h3]
    · by_cases h2 : j < n
      · have h3 : j = n - 1 := by omega
        simp [h1, h3]
        omega
      · simp [h1, h2]
  have hl : (mpz_bin_d ⟨2 ^ n - 1, n⟩).len = usub n 1 := rfl
  cases hd : mpz_bin_d ⟨2 ^ n - 1, n⟩ with
  | mk i len =>
    rw [hd] at hi hl
    simp only at hi hl
    rw [hi, hl]

theorem mpz_bin_d_k_all_ones (n k : Nat) (hn : 1 ≤ n) :
    (mpz_bin_d_k ⟨2 ^ n - 1, n⟩ (k + 1)).i = 0 := by
  rw [← mpz_bin_d_k_succ_left, mpz_bin_d_all_ones n hn]
  exact mpz_bin_d_k_zero _ _

theorem spec_term_zero_string (n k : Nat) :
    shannonH ((mpz_popcount (mpz_bin_d_k ⟨0, n⟩ k).i : ℝ) / ((n - k : Nat) : ℝ)) = 0 := by
  rw [mpz_bin_d_k_zero, mpz_popcount_zero]
  simp [shannonH_zero]

theorem spec_term_all_ones (n k : Nat) (hk : k < n) :
    shannonH ((mpz_popcount (mpz_bin_d_k ⟨2 ^ n - 1, n⟩ k).i : ℝ) / ((n - k : Nat) : ℝ)) = 0 := by
  rcases k with _ | k
  · have hne : (n : ℝ) ≠ 0 := by
      have : 0 < n := by omega
      positivity
    simp only [mpz_bin_d_k, mpz_popcount_ones, Nat.sub_zero]
    rw [div_self hne, shannonH_one]
  · rw [mpz_bin_d_k_all_ones n k (by omega), mpz_popcount_zero]
    simp [shannonH_zero]

theorem bien_spec_zero_of_terms (s : mpz_bin)
    (h : ∀ k, k < s.len - 1 →
      shannonH ((mpz_popcount (mpz_bin_d_k s k).i : ℝ) / ((s.len - k : Nat) : ℝ)) = 0) :
    bien_spec s = 0 := by
  unfold bien_spec
  rw [Finset.sum_eq_zero, zero_div]
  intro k hk
  rw [h k (Finset.mem_range.mp hk), zero_mul]

theorem tbien_spec_zero_of_terms (s : mpz_bin)
    (h : ∀ k, k < s.len - 1 →
      shannonH ((mpz_popcount (mpz_bin_d_k s k).i : ℝ) / ((s.len - k : Nat) : ℝ)) = 0) :
    tbien_spec s = 0 := by
  unfold tbien_spec tbien_T
  rw [Finset.sum_eq_zero, zero_div]
  intro k hk
  rw [h k (Finset.mem_range.mp hk), zero_mul]

theorem inRange_zero (n : Nat) : InRange ⟨0, n⟩ := Nat.two_pow_pos n

theorem inRange_all_ones (n : Nat) : InRange ⟨2 ^ n - 1, n⟩ :=
  Nat.sub_lt (Nat.two_pow_pos n) (by norm_num)

theorem constant_strings_zero (n : Nat) (hn : 2 ≤ n) (hu : n < UINT_MOD) :
    bien ⟨0, n⟩ = .ok 0 ∧ bien ⟨2 ^ n - 1, n⟩ = .ok 0 ∧
      tbien ⟨0, n⟩ = .ok 0 ∧ tbien ⟨2 ^ n - 1, n⟩ = .ok 0 := by
  have hz := fun k (_ : k < n - 1) => spec_term_zero_string n k
  have ho := fun k (hk : k < n - 1) => spec_term_all_ones n k (by omega)
  refine ⟨?_, ?_, ?_, ?_⟩
  · rw [bien_inRange ⟨0, n⟩ hn hu (inRange_zero n), bien_spec_zero_of_terms _ hz]
  · rw [bien_inRange ⟨2 ^ n - 1, n⟩ hn hu (inRange_all_ones n), bien_spec_zero_of_terms _ ho]
  · rw [tbien_inRange ⟨0, n⟩ hn hu (inRange_zero n), tbien_spec_zero_of_terms _ hz]
  · rw [tbien_inRange ⟨2 ^ n - 1, n⟩ hn hu (inRange_all_ones n),
      tbien_spec_zero_of_terms _ ho]

/-! ## Numeric values -/

theorem logb_two_two : Real.logb 2 2 = 1 := Real.logb_self_eq_one (by norm_num)

theorem logb_two_four : Real.logb 2 4 = 2 := by
  have h : (4 : ℝ) = 2 ^ 2 := by norm_num
  rw [h, Real.logb_pow, logb_two_two]
  norm_num

theorem logb_two_three_gt : (1584 : ℝ) / 1000 < Real.logb 2 3 := by
  have h1 : Real.logb 2 ((2 : ℝ) ^ 1584) < Real.logb 2 ((3 : ℝ) ^ 1000) :=
    Real.logb_lt_logb (by norm_num) (by positivity) (by norm_num)
  rw [Real.logb_pow, Real.logb_pow, logb_two_two] at h1
  norm_num at h1
  linarith

theorem logb_two_three_lt : Real.logb 2 3 < (1585 : ℝ) / 1000 := by
  have h1 : Real.logb 2 ((3 : ℝ) ^ 1000) < Real.logb 2 ((2 : ℝ) ^ 1585) :=
    Real.logb_lt_logb (by norm_num) (by positivity) (by norm_num)
  rw [Real.logb_pow, Real.logb_pow, logb_two_two] at h1
  norm_num at h1
  linarith

theorem shannonH_half : shannonH (1 / 2) = 1 := by
  have h : Real.logb 2 (1 / 2) = -1 := by
    rw [Real.logb_div (by norm_num) (by norm_num), Real.logb_one, logb_two_two]; norm_num
  have e : (1 : ℝ) - 1 / 2 = 1 / 2 := by norm_num
  unfold shannonH
  rw [if_neg (by norm_num), e, h]
  norm_num

theorem shannonH_quarter : shannonH (1 / 4) = 2 - 3 / 4 * Real.logb 2 3 := by
  have h1 : Real.logb 2 (1 / 4) = -2 := by
    rw [Real.logb_div (by norm_num) (by norm_num), Real.logb_one, logb_two_four]; norm_num
  have h2 : Real.logb 2 (3 / 4) = Real.logb 2 3 - 2 := by
    rw [Real.logb_div (by norm_num) (by norm_num), logb_two_four]
  have e : (1 : ℝ) - 1 / 4 = 3 / 4 := by norm_num
  unfold shannonH
  rw [if_neg (by norm_num), e, h1, h2]
  ring

theorem shannonH_three_quarters : shannonH (3 / 4) = 2 - 3 / 4 * Real.logb 2 3 := by
  have h1 : Real.logb 2 (1 / 4) = -2 := by
    rw [Real.logb_div (by norm_num) (by norm_num), Real.logb_one, logb_two_four]; norm_num
  have h2 : Real.logb 2 (3 / 4) = Real.logb 2 3 - 2 := by
    rw [Real.logb_div (by norm_num) (by norm_num), logb_two_four]
  have e : (1 : ℝ) - 3 / 4 = 1 / 4 := by norm_num
  unfold shannonH
  rw [if_neg (by norm_num), e, h1, h2]
  ring

theorem shannonH_third : shannonH (1 / 3) = Real.logb 2 3 - 2 / 3 := by
  have h1 : Real.logb 2 (1 / 3) = -Real.logb 2 3 := by
    rw [Real.logb_div (by norm_num) (by norm_num), Real.logb_one]; ring
  have h2 : Real.logb 2 (2 / 3) = 1 - Real.logb 2 3 := by
    rw [Real.logb_div (by norm_num) (by norm_num), logb_two_two]
  have e : (1 : ℝ) - 1 / 3 = 2 / 3 := by norm_num
  unfold shannonH
  rw [if_neg (by norm_num), e, h1, h2]
  ring

theorem shannonH_two_thirds : shannonH (2 / 3) = Real.logb 2 3 - 2 / 3 := by
  have h1 : Real.logb 2 (1 / 3) = -Real.logb 2 3 := by
    rw [Real.logb_div (by norm_num) (by norm_num), Real.logb_one]; ring
  have h2 : Real.logb 2 (2 / 3) = 1 - Real.logb 2 3 := by
    rw [Real.logb_div (by norm_num) (by norm_num), logb_two_two]
  have e : (1 : ℝ) - 2 / 3 = 1 / 3 := by norm_num
  unfold shannonH
  rw [if_neg (by norm_num), e, h1, h2]
  ring

theorem tbien_L_four : tbien_L 4 = 3 + Real.logb 2 3 := by
  unfold tbien_L
  simp only [Finset.sum_range_succ, Finset.sum_range_zero, Nat.reduceSub]
  norm_num
  rw [logb_two_four]
  ring

theorem aggregators_len4 (v a b c : Nat) (hv : v < 16)
    (ha : mpz_popcount (mpz_bin_d_k ⟨v, 4⟩ 0).i = a)
    (hb : mpz_popcount (mpz_bin_d_k ⟨v, 4⟩ 1).i = b)
    (hc : mpz_popcount (mpz_bin_d_k ⟨v, 4⟩ 2).i = c) :
    bien ⟨v, 4⟩ = .ok ((shannonH ((a : ℝ) / 4) + shannonH ((b : ℝ) / 3) * 2
        + shannonH ((c : ℝ) / 2) * 4) / 7) ∧
    tbien ⟨v, 4⟩ = .ok ((shannonH ((a : ℝ) / 4) + shannonH ((b : ℝ) / 3) * Real.logb 2 3
        + shannonH ((c : ℝ) / 2) * 2) / (3 + Real.logb 2 3)) := by
  have hu : (4 : Nat) < UINT_MOD := by decide
  have hr : InRange ⟨v, 4⟩ := by unfold InRange; simpa using hv
  constructor
  · rw [bien_inRange ⟨v, 4⟩ (show 2 ≤ 4 by decide) hu hr]
    unfold bien_spec
    simp only [Finset.sum_range_succ, Finset.sum_range_zero, Nat.reduceSub, ha, hb, hc]
    norm_num
  · rw [tbien_inRange ⟨v, 4⟩ (show 2 ≤ 4 by decide) hu hr]
    unfold tbien_spec tbien_T
    rw [tbien_L_four]
    simp only [Finset.sum_range_succ, Finset.sum_range_zero, Nat.reduceSub, ha, hb, hc]
    norm_num
    rw [logb_two_four]


theorem abs_div_sub_le (x d c e : ℝ) (hd : 0 < d) (h1 : (c - e) * d ≤ x)
    (h2 : x ≤ (c + e) * d) : |x / d - c| ≤ e := by
  rw [abs_le]
  constructor
  · rw [le_sub_iff_add_le, le_div_iff₀ hd]; linarith
  · rw [sub_le_iff_le_add, div_le_iff₀ hd]; linarith

theorem len4_row_4 : ∃ b t : ℝ, bien ⟨0, 4⟩ = .ok b ∧ tbien ⟨0, 4⟩ = .ok t ∧
    |b - 0.000| ≤ 0.005 ∧ |t - 0.000| ≤ 0.005 := by
  obtain ⟨hz1, ho1, hz2, ho2⟩ := constant_strings_zero 4 (by decide) (by decide)
  exact ⟨0, 0, hz1, hz2, by norm_num, by norm_num⟩

theorem len4_row_5 : ∃ b t : ℝ, bien ⟨3, 4⟩ = .ok b ∧ tbien ⟨3, 4⟩ = .ok t ∧
    |b - 0.405| ≤ 0.005 ∧ |t - 0.536| ≤ 0.005 := by
  obtain ⟨hb, ht⟩ := aggregators_len4 3 2 1 2 (by decide) (by decide) (by decide) (by decide)
  have h1 := logb_two_three_gt
  have h2 := logb_two_three_lt
  have h3 : (0 : ℝ) < 3 + Real.logb 2 3 := by linarith
  refine ⟨_, _, hb, ht, abs_div_sub_le _ _ _ _ (by norm_num) ?_ ?_,
    abs_div_sub_le _ _ _ _ h3 ?_ ?_⟩ <;>
  · norm_num [shannonH_half, shannonH_third, shannonH_two_thirds, shannonH_quarter,
      shannonH_three_quarters, shannonH_zero, shannonH_one]
    nlinarith

theorem len4_row_6 : ∃ b t : ℝ, bien ⟨1, 4⟩ = .ok b ∧ tbien ⟨1, 4⟩ = .ok t ∧
    |b - 0.950| ≤ 0.005 ∧ |t - 0.931| ≤ 0.005 := by
  obtain ⟨hb, ht⟩ := aggregators_len4 1 1 1 1 (by decide) (by decide) (by decide) (by decide)
  have h1 := logb_two_three_gt
  have h2 := logb_two_three_lt
  have h3 : (0 : ℝ) < 3 + Real.logb 2 3 := by linarith
  refine ⟨_, _, hb, ht, abs_div_sub_le _ _ _ _ (by norm_num) ?_ ?_,
    abs_div_sub_le _ _ _ _ h3 ?_ ?_⟩ <;>
  · norm_num [shannonH_half, shannonH_third, shannonH_two_thirds, shannonH_quarter,
      shannonH_three_quarters, shannonH_zero, shannonH_one]
    nlinarith

theorem len4_row_7 : ∃ b t : ℝ, bien ⟨2, 4⟩ = .ok b ∧ tbien ⟨2, 4⟩ = .ok t ∧
    |b - 0.950| ≤ 0.005 ∧ |t - 0.931| ≤ 0.005 := by
  obtain ⟨hb, ht⟩ := aggregators_len4 2 1 2 1 (by decide) (by decide) (by decide) (by decide)
  have h1 := logb_two_three_gt
  have h2 := logb_two_three_lt
  have h3 : (0 : ℝ) < 3 + Real.logb 2 3 := by linarith
  refine ⟨_, _, hb, ht, abs_div_sub_le _ _ _ _ (by norm_num) ?_ ?_,
    abs_div_sub_le _ _ _ _ h3 ?_ ?_⟩ <;>
  · norm_num [shannonH_half, shannonH_third, shannonH_two_thirds, shannonH_quarter,
      shannonH_three_quarters, shannonH_zero, shannonH_one]
    nlinarith

theorem len4_row_8 : ∃ b t : ℝ, bien ⟨12, 4⟩ = .ok b ∧ tbien ⟨12, 4⟩ = .ok t ∧
    |b - 0.405| ≤ 0.005 ∧ |t - 0.536| ≤ 0.005 := by
  obtain ⟨hb, ht⟩ := aggregators_len4 12 2 1 2 (by decide) (by decide) (by decide) (by decide)
  have h1 := logb_two_three_gt
  have h2 := logb_two_three_lt
  have h3 : (0 : ℝ) < 3 + Real.logb 2 3 := by linarith
  refine ⟨_, _, hb, ht, abs_div_sub_le _ _ _ _ (by norm_num) ?_ ?_,
    abs_div_sub_le _ _ _ _ h3 ?_ ?_⟩ <;>
  · norm_num [shannonH_half, shannonH_third, shannonH_two_thirds, shannonH_quarter,
      shannonH_three_quarters, shannonH_zero, shannonH_one]
    nlinarith

theorem len4_row_9 : ∃ b t : ℝ, bien ⟨15, 4⟩ = .ok b ∧ tbien ⟨15, 4⟩ = .ok t ∧
    |b - 0.000| ≤ 0.005 ∧ |t - 0.000| ≤ 0.005 := by
  obtain ⟨hz1, ho1, hz2, ho2⟩ := constant_strings_zero 4 (by decide) (by decide)
  exact ⟨0, 0, ho1, ho2, by norm_num, by norm_num⟩

theorem len4_row_10 : ∃ b t : ℝ, bien ⟨13, 4⟩ = .ok b ∧ tbien ⟨13, 4⟩ = .ok t ∧
    |b - 0.950| ≤ 0.005 ∧ |t - 0.931| ≤ 0.005 := by
  obtain ⟨hb, ht⟩ := aggregators_len4 13 3 2 1 (by decide) (by decide) (by decide) (by decide)
  have h1 := logb_two_three_gt
  have h2 := logb_two_three_lt
  have h3 : (0 : ℝ) < 3 + Real.logb 2 3 := by linarith
  refine ⟨_, _, hb, ht, abs_div_sub_le _ _ _ _ (by norm_num) ?_ ?_,
    abs_div_sub_le _ _ _ _ h3 ?_ ?_⟩ <;>
  · norm_num [shannonH_half, shannonH_third, shannonH_two_thirds, shannonH_quarter,
      shannonH_three_quarters, shannonH_zero, shannonH_one]
    nlinarith

theorem len4_row_11 : ∃ b t : ℝ, bien ⟨14, 4⟩ = .ok b ∧ tbien ⟨14, 4⟩ = .ok t ∧
    |b - 0.950| ≤ 0.005 ∧ |t - 0.931| ≤ 0.005 := by
  obtain ⟨hb, ht⟩ := aggregators_len4 14 3 1 1 (by decide) (by decide) (by decide) (by decide)
  have h1 := logb_two_three_gt
  have h2 := logb_two_three_lt
  have h3 : (0 : ℝ) < 3 + Real.logb 2 3 := by linarith
  refine ⟨_, _, hb, ht, abs_div_sub_le _ _ _ _ (by norm_num) ?_ ?_,
    abs_div_sub_le _ _ _ _ h3 ?_ ?_⟩ <;>
  · norm_num [shannonH_half, shannonH_third, shannonH_two_thirds, shannonH_quarter,
      shannonH_three_quarters, shannonH_zero, shannonH_one]
    nlinarith

theorem len4_row_12 : ∃ b t : ℝ, bien ⟨4, 4⟩ = .ok b ∧ tbien ⟨4, 4⟩ = .ok t ∧
    |b - 0.950| ≤ 0.005 ∧ |t - 0.931| ≤ 0.005 := by
  obtain ⟨hb, ht⟩ := aggregators_len4 4 1 2 1 (by decide) (by decide) (by decide) (by decide)
  have h1 := logb_two_three_gt
  have h2 := logb_two_three_lt
  have h3 : (0 : ℝ) < 3 + Real.logb 2 3 := by linarith
  refine ⟨_, _, hb, ht, abs_div_sub_le _ _ _ _ (by norm_num) ?_ ?_,
    abs_div_sub_le _ _ _ _ h3 ?_ ?_⟩ <;>
  · norm_num [shannonH_half, shannonH_third, shannonH_two_thirds, shannonH_quarter,
      shannonH_three_quarters, shannonH_zero, shannonH_one]
    nlinarith

theorem len4_row_13 : ∃ b t : ℝ, bien ⟨7, 4⟩ = .ok b ∧ tbien ⟨7, 4⟩ = .ok t ∧
    |b - 0.950| ≤ 0.005 ∧ |t - 0.931| ≤ 0.005 := by
  obtain ⟨hb, ht⟩ := aggregators_len4 7 3 1 1 (by decide) (by decide) (by decide) (by decide)
  have h1 := logb_two_three_gt
  have h2 := logb_two_three_lt
  have h3 : (0 : ℝ) < 3 + Real.logb 2 3 := by linarith
  refine ⟨_, _, hb, ht, abs_div_sub_le _ _ _ _ (by norm_num) ?_ ?_,
    abs_div_sub_le _ _ _ _ h3 ?_ ?_⟩ <;>
  · norm_num [shannonH_half, shannonH_third, shannonH_two_thirds, shannonH_quarter,
      shannonH_three_quarters, shannonH_zero, shannonH_one]
    nlinarith

theorem len4_row_14 : ∃ b t : ℝ, bien ⟨5, 4⟩ = .ok b ∧ tbien ⟨5, 4⟩ = .ok t ∧
    |b - 0.143| ≤ 0.005 ∧ |t - 0.218| ≤ 0.005 := by
  obtain ⟨hb, ht⟩ := aggregators_len4 5 2 3 0 (by decide) (by decide) (by decide) (by decide)
  have h1 := logb_two_three_gt
  have h2 := logb_two_three_lt
  have h3 : (0 : ℝ) < 3 + Real.logb 2 3 := by linarith
  refine ⟨_, _, hb, ht, abs_div_sub_le _ _ _ _ (by norm_num) ?_ ?_,
    abs_div_sub_le _ _ _ _ h3 ?_ ?_⟩
  · norm_num [shannonH_half, shannonH_zero, shannonH_one]
  · norm_num [shannonH_half, shannonH_zero, shannonH_one]
  · norm_num [shannonH_half, shannonH_zero, shannonH_one]
    nlinarith
  · norm_num [shannonH_half, shannonH_zero, shannonH_one]
    nlinarith

theorem len4_row_15 : ∃ b t : ℝ, bien ⟨6, 4⟩ = .ok b ∧ tbien ⟨6, 4⟩ = .ok t ∧
    |b - 0.405| ≤ 0.005 ∧ |t - 0.536| ≤ 0.005 := by
  obtain ⟨hb, ht⟩ := aggregators_len4 6 2 2 2 (by decide) (by decide) (by decide) (by decide)
  have h1 := logb_two_three_gt
  have h2 := logb_two_three_lt
  have h3 : (0 : ℝ) < 3 + Real.logb 2 3 := by linarith
  refine ⟨_, _, hb, ht, abs_div_sub_le _ _ _ _ (by norm_num) ?_ ?_,
    abs_div_sub_le _ _ _ _ h3 ?_ ?_⟩ <;>
  · norm_num [shannonH_half, shannonH_third, shannonH_two_thirds, shannonH_quarter,
      shannonH_three_quarters, shannonH_zero, shannonH_one]
    nlinarith

theorem len4_row_16 : ∃ b t : ℝ, bien ⟨8, 4⟩ = .ok b ∧ tbien ⟨8, 4⟩ = .ok t ∧
    |b - 0.950| ≤ 0.005 ∧ |t - 0.931| ≤ 0.005 := by
  obtain ⟨hb, ht⟩ := aggregators_len4 8 1 1 1 (by decide) (by decide) (by decide) (by decide)
  have h1 := logb_two_three_gt
  have h2 := logb_two_three_lt
  have h3 : (0 : ℝ) < 3 + Real.logb 2 3 := by linarith
  refine ⟨_, _, hb, ht, abs_div_sub_le _ _ _ _ (by norm_num) ?_ ?_,
    abs_div_sub_le _ _ _ _ h3 ?_ ?_⟩ <;>
  · norm_num [shannonH_half, shannonH_third, shannonH_two_thirds, shannonH_quarter,
      shannonH_three_quarters, shannonH_zero, shannonH_one]
    nlinarith

theorem len4_row_17 : ∃ b t : ℝ, bien ⟨11, 4⟩ = .ok b ∧ tbien ⟨11, 4⟩ = .ok t ∧
    |b - 0.950| ≤ 0.005 ∧ |t - 0.931| ≤ 0.005 := by
  obtain ⟨hb, ht⟩ := aggregators_len4 11 3 2 1 (by decide) (by decide) (by decide) (by decide)
  have h1 := logb_two_three_gt
  have h2 := logb_two_three_lt
  have h3 : (0 : ℝ) < 3 + Real.logb 2 3 := by linarith
  refine ⟨_, _, hb, ht, abs_div_sub_le _ _ _ _ (by norm_num) ?_ ?_,
    abs_div_sub_le _ _ _ _ h3 ?_ ?_⟩ <;>
  · norm_num [shannonH_half, shannonH_third, shannonH_two_thirds, shannonH_quarter,
      shannonH_three_quarters, shannonH_zero, shannonH_one]
    nlinarith

theorem len4_row_18 : ∃ b t : ℝ, bien ⟨9, 4⟩ = .ok b ∧ tbien ⟨9, 4⟩ = .ok t ∧
    |b - 0.405| ≤ 0.005 ∧ |t - 0.536| ≤ 0.005 := by
  obtain ⟨hb, ht⟩ := aggregators_len4 9 2 2 2 (by decide) (by decide) (by decide) (by decide)
  have h1 := logb_two_three_gt
  have h2 := logb_two_three_lt
  have h3 : (0 : ℝ) < 3 + Real.logb 2 3 := by linarith
  refine ⟨_, _, hb, ht, abs_div_sub_le _ _ _ _ (by norm_num) ?_ ?_,
    abs_div_sub_le _ _ _ _ h3 ?_ ?_⟩ <;>
  · norm_num [shannonH_half, shannonH_third, shannonH_two_thirds, shannonH_quarter,
      shannonH_three_quarters, shannonH_zero, shannonH_one]
    nlinarith

theorem len4_row_19 : ∃ b t : ℝ, bien ⟨10, 4⟩ = .ok b ∧ tbien ⟨10, 4⟩ = .ok t ∧
    |b - 0.143| ≤ 0.005 ∧ |t - 0.218| ≤ 0.005 := by
  obtain ⟨hb, ht⟩ := aggregators_len4 10 2 3 0 (by decide) (by decide) (by decide) (by decide)
  have h1 := logb_two_three_gt
  have h2 := logb_two_three_lt
  have h3 : (0 : ℝ) < 3 + Real.logb 2 3 := by linarith
  refine ⟨_, _, hb, ht, abs_div_sub_le _ _ _ _ (by norm_num) ?_ ?_,
    abs_div_sub_le _ _ _ _ h3 ?_ ?_⟩
  · norm_num [shannonH_half, shannonH_zero, shannonH_one]
  · norm_num [shannonH_half, shannonH_zero, shannonH_one]
  · norm_num [shannonH_half, shannonH_zero, shannonH_one]
    nlinarith
  · norm_num [shannonH_half, shannonH_zero, shannonH_one]
    nlinarith

/-! ## Length two -/

theorem tbien_L_two : tbien_L 2 = 1 := by
  unfold tbien_L
  simp only [Finset.sum_range_succ, Finset.sum_range_zero, Nat.reduceSub]
  norm_num

/-- Both aggregators on a string of length two, in range or not: one iteration,
weight one, normaliser one. -/
theorem aggregators_len2 (v a : Nat) (ha : ones ⟨v, 2⟩ = a) (hok : a ≤ 2) :
    bien ⟨v, 2⟩ = .ok (shannonH ((a : ℝ) / 2)) ∧
    tbien ⟨v, 2⟩ = .ok (shannonH ((a : ℝ) / 2)) := by
  have hd : ∀ j, j < (⟨v, 2⟩ : mpz_bin).len - 1 → DensityOk (mpz_bin_d_k ⟨v, 2⟩ j) := by
    intro j hj
    have hj0 : j = 0 := by
      have : j < 1 := hj
      omega
    subst hj0
    exact ⟨show 0 < 2 by decide, by rw [mpz_bin_d_k, ha]; exact hok⟩
  constructor
  · rw [bien_of_chain_ok ⟨v, 2⟩ (show 2 ≤ 2 by decide) hd]
    unfold bien_chain chain_entropy
    simp only [Finset.sum_range_succ, Finset.sum_range_zero, Nat.reduceSub, mpz_bin_d_k, ha]
    norm_num
  · rw [tbien_of_chain_ok ⟨v, 2⟩ (show 2 ≤ 2 by decide) (show 2 < UINT_MOD by decide) hd]
    unfold tbien_chain chain_entropy
    rw [tbien_L_two]
    simp only [Finset.sum_range_succ, Finset.sum_range_zero, Nat.reduceSub, mpz_bin_d_k, ha]
    norm_num

theorem len2_values :
    (bien ⟨0, 2⟩ = .ok 0 ∧ bien ⟨1, 2⟩ = .ok 1 ∧ bien ⟨2, 2⟩ = .ok 1 ∧ bien ⟨3, 2⟩ = .ok 0) ∧
    (tbien ⟨0, 2⟩ = .ok 0 ∧ tbien ⟨1, 2⟩ = .ok 1 ∧ tbien ⟨2, 2⟩ = .ok 1 ∧
      tbien ⟨3, 2⟩ = .ok 0) := by
  obtain ⟨b0, t0⟩ := aggregators_len2 0 0 (by decide) (by decide)
  obtain ⟨b1, t1⟩ := aggregators_len2 1 1 (by decide) (by decide)
  obtain ⟨b2, t2⟩ := aggregators_len2 2 1 (by decide) (by decide)
  obtain ⟨b3, t3⟩ := aggregators_len2 3 2 (by decide) (by decide)
  have e0 : shannonH (((0 : Nat) : ℝ) / 2) = 0 := by
    rw [Nat.cast_zero, zero_div, shannonH_zero]
  have e1 : shannonH (((1 : Nat) : ℝ) / 2) = 1 := by
    rw [Nat.cast_one, shannonH_half]
  have e2 : shannonH (((2 : Nat) : ℝ) / 2) = 0 := by
    rw [Nat.cast_ofNat, div_self (by norm_num), shannonH_one]
  rw [e0] at b0 t0
  rw [e1] at b1 t1 b2 t2
  rw [e2] at b3 t3
  exact ⟨⟨b0, b1, b2, b3⟩, ⟨t0, t1, t2, t3⟩⟩

/-- Rows 4 to 19 of the demo table: the sixteen strings of length four. -/
theorem len4_rows (i : Nat) (h4 : 4 ≤ i) (h20 : i < 20) :
    (demo_row i).len = 4 ∧ (demo_row i).i < 2 ^ 4 ∧
    ∃ b t : ℝ, bien (demo_row i) = .ok b ∧ tbien (demo_row i) = .ok t ∧
      |b - demo_bien i| ≤ 0.005 ∧ |t - demo_tbien i| ≤ 0.005 := by
  interval_cases i
  · have eb : demo_bien 4 = 0.000 := by norm_num [demo_bien, biens]
    have et : demo_tbien 4 = 0.000 := by norm_num [demo_tbien, tbiens]
    rw [eb, et]
    exact ⟨rfl, by decide, len4_row_4⟩
  · have eb : demo_bien 5 = 0.405 := by norm_num [demo_bien, biens]
    have et : demo_tbien 5 = 0.536 := by norm_num [demo_tbien, tbiens]
    rw [eb, et]
    exact ⟨rfl, by decide, len4_row_5⟩
  · have eb : demo_bien 6 = 0.950 := by norm_num [demo_bien, biens]
    have et : demo_tbien 6 = 0.931 := by norm_num [demo_tbien, tbiens]
    rw [eb, et]
    exact ⟨rfl, by decide, len4_row_6⟩
  · have eb : demo_bien 7 = 0.950 := by norm_num [demo_bien, biens]
    have et : demo_tbien 7 = 0.931 := by norm_num [demo_tbien, tbiens]
    rw [eb, et]
    exact ⟨rfl, by decide, len4_row_7⟩
  · have eb : demo_bien 8 = 0.405 := by norm_num [demo_bien, biens]
    have et : demo_tbien 8 = 0.536 := by norm_num [demo_tbien, tbiens]
    rw [eb, et]
    exact ⟨rfl, by decide, len4_row_8⟩
  · have eb : demo_bien 9 = 0.000 := by norm_num [demo_bien, biens]
    have et : demo_tbien 9 = 0.000 := by norm_num [demo_tbien, tbiens]
    rw [eb, et]
    exact ⟨rfl, by decide, len4_row_9⟩
  · have eb : demo_bien 10 = 0.950 := by norm_num [demo_bien, biens]
    have et : demo_tbien 10 = 0.931 := by norm_num [demo_tbien, tbiens]
    rw [eb, et]
    exact ⟨rfl, by decide, len4_row_10⟩
  · have eb : demo_bien 11 = 0.950 := by norm_num [demo_bien, biens]
    have et : demo_tbien 11 = 0.931 := by norm_num [demo_tbien, tbiens]
    rw [eb, et]
    exact ⟨rfl, by decide, len4_row_11⟩
  · have eb : demo_bien 12 = 0.950 := by norm_num [demo_bien, biens]
    have et : demo_tbien 12 = 0.931 := by norm_num [demo_tbien, tbiens]
    rw [eb, et]
    exact ⟨rfl, by decide, len4_row_12⟩
  · have eb : demo_bien 13 = 0.950 := by norm_num [demo_bien, biens]
    have et : demo_tbien 13 = 0.931 := by norm_num [demo_tbien, tbiens]
    rw [eb, et]
    exact ⟨rfl, by decide, len4_row_13⟩
  · have eb : demo_bien 14 = 0.143 := by norm_num [demo_bien, biens]
    have et : demo_tbien 14 = 0.218 := by norm_num [demo_tbien, tbiens]
    rw [eb, et]
    exact ⟨rfl, by decide, len4_row_14⟩
  · have eb : demo_bien 15 = 0.405 := by norm_num [demo_bien, biens]
    have et : demo_tbien 15 = 0.536 := by norm_num [demo_tbien, tbiens]
    rw [eb, et]
    exact ⟨rfl, by decide, len4_row_15⟩
  · have eb : demo_bien 16 = 0.950 := by norm_num [demo_bien, biens]
    have et : demo_tbien 16 = 0.931 := by norm_num [demo_tbien, tbiens]
    rw [eb, et]
    exact ⟨rfl, by decide, len4_row_16⟩
  · have eb : demo_bien 17 = 0.950 := by norm_num [demo_bien, biens]
    have et : demo_tbien 17 = 0.931 := by norm_num [demo_tbien, tbiens]
    rw [eb, et]
    exact ⟨rfl, by decide, len4_row_17⟩
  · have eb : demo_bien 18 = 0.405 := by norm_num [demo_bien, biens]
    have et : demo_tbien 18 = 0.536 := by norm_num [demo_tbien, tbiens]
    rw [eb, et]
    exact ⟨rfl, by decide, len4_row_18⟩
  · have eb : demo_bien 19 = 0.143 := by norm_num [demo_bien, biens]
    have et : demo_tbien 19 = 0.218 := by norm_num [demo_tbien, tbiens]
    rw [eb, et]
    exact ⟨rfl, by decide, len4_row_19⟩

/-- The pair `(t, l)` the loop of `tbien` hands to the final division. -/
theorem tbien_loop_top (s : mpz_bin) (hn : 1 ≤ s.len) (hu : s.len < UINT_MOD)
    (h : ∀ j, j < s.len - 1 → DensityOk (mpz_bin_d_k s j)) :
    tbien_loop (usub s.len 1) 0 s 0 0 = .ok
      (∑ k in Finset.range (s.len - 1), chain_entropy s k * Real.logb 2 ((k : ℝ) + 2),
       tbien_L s.len) := by
  rw [usub_one_eq hn, tbien_loop_ok _ 0 s 0 0 h (by omega)]
  simp only [zero_add]
  rfl

/-! ## The claims -/

/-- C1: for every bit string `s` of length `n ≥ 2` with value below `2 ^ n`,
`bien s` returns the power-law weighted average of the specification: the sum
over `k = 0..n-2` of `H(popcount(D^k s) / (n-k)) * 2^k`, divided by
`2^(n-1) - 1`, where `D^k s` is `mpz_bin_d_k s k`. -/
theorem bien_is_weighted_entropy_average (s : mpz_bin) (hn : 2 ≤ s.len)
    (hu : s.len < UINT_MOD) (hv : s.i < 2 ^ s.len) :
    bien s = .ok ((∑ k in Finset.range (s.len - 1),
      shannonH ((mpz_popcount (mpz_bin_d_k s k).i : ℝ) / ((s.len - k : Nat) : ℝ)) * 2 ^ k)
        / (2 ^ (s.len - 1) - 1)) :=
  bien_inRange s hn hu hv

theorem bien_is_weighted_entropy_average_witness :
    bien ⟨3, 4⟩ = .ok ((∑ k in Finset.range (4 - 1),
      shannonH ((mpz_popcount (mpz_bin_d_k ⟨3, 4⟩ k).i : ℝ) / ((4 - k : Nat) : ℝ)) * 2 ^ k)
        / (2 ^ (4 - 1) - 1)) :=
  bien_is_weighted_entropy_average ⟨3, 4⟩ (by decide) (by decide) (by decide)

/-- C2: for every bit string `s` of length `n ≥ 2` with value below `2 ^ n`,
`tbien s` returns `T / L`, where `T` is the sum over `k = 0..n-2` of
`H(popcount(D^k s) / (n-k)) * log2(k+2)` and `L` is the sum of the weights
`log2(k+2)`. -/
theorem tbien_is_log_weighted_average (s : mpz_bin) (hn : 2 ≤ s.len)
    (hu : s.len < UINT_MOD) (hv : s.i < 2 ^ s.len) :
    tbien s = .ok ((∑ k in Finset.range (s.len - 1),
      shannonH ((mpz_popcount (mpz_bin_d_k s k).i : ℝ) / ((s.len - k : Nat) : ℝ))
        * Real.logb 2 ((k : ℝ) + 2))
        / (∑ k in Finset.range (s.len - 1), Real.logb 2 ((k : ℝ) + 2))) :=
  tbien_inRange s hn hu hv

theorem tbien_is_log_weighted_average_witness :
    tbien ⟨3, 4⟩ = .ok ((∑ k in Finset.range (4 - 1),
      shannonH ((mpz_popcount (mpz_bin_d_k ⟨3, 4⟩ k).i : ℝ) / ((4 - k : Nat) : ℝ))
        * Real.logb 2 ((k : ℝ) + 2))
        / (∑ k in Finset.range (4 - 1), Real.logb 2 ((k : ℝ) + 2))) :=
  tbien_is_log_weighted_average ⟨3, 4⟩ (by decide) (by decide) (by decide)

/-- C3: for every bit string `x` of length `n ≥ 2`, the value of `mpz_bin_d x`
is `a XOR (x.i >> 1)`, where `a` is `x.i` with bit `n-1` cleared, and for every
`i < n-1` bit `i` of the output is set exactly when bits `i` and `i+1` of `x.i`
differ. -/
theorem mpz_bin_d_adjacent_bits (x : mpz_bin) (hn : 2 ≤ x.len) :
    (∃ a : Nat, (∀ j, a.testBit j = (x.i.testBit j && decide (j ≠ x.len - 1))) ∧
      (mpz_bin_d x).i = a ^^^ (x.i >>> 1)) ∧
    (∀ i, i < x.len - 1 →
      ((mpz_bin_d x).i.testBit i = true ↔ x.i.testBit i ≠ x.i.testBit (i + 1))) := by
  have h1 : 1 ≤ x.len := by omega
  constructor
  · refine ⟨mpz_clrbit x.i (x.len - 1), fun j => testBit_mpz_clrbit _ _ _, ?_⟩
    unfold mpz_bin_d mpz_xor mpz_tdiv_q_2exp
    simp only [usub_one_eq h1, Nat.shiftRight_eq_div_pow]
  · intro i hi
    have hne : i ≠ x.len - 1 := by omega
    rw [testBit_mpz_bin_d, usub_one_eq h1]
    cases x.i.testBit i <;> cases x.i.testBit (i + 1) <;> simp [hne]

theorem mpz_bin_d_adjacent_bits_witness :
    (mpz_bin_d ⟨0b0110, 4⟩).i = 0b101 ∧
    (∃ a : Nat, (∀ j, a.testBit j = ((0b0110 : Nat).testBit j && decide (j ≠ 4 - 1))) ∧
      (mpz_bin_d ⟨0b0110, 4⟩).i = a ^^^ (0b0110 >>> 1)) ∧
    (∀ i, i < 4 - 1 →
      ((mpz_bin_d ⟨0b0110, 4⟩).i.testBit i = true
        ↔ (0b0110 : Nat).testBit i ≠ (0b0110 : Nat).testBit (i + 1))) :=
  ⟨by decide, mpz_bin_d_adjacent_bits ⟨0b0110, 4⟩ (by decide)⟩

/-- C4: for every bit string `s` of length `n ≥ 2` with value below `2 ^ n`,
`bien s` returns a number of the closed interval `[0, 1]`. -/
theorem bien_in_unit_interval (s : mpz_bin) (hn : 2 ≤ s.len) (hu : s.len < UINT_MOD)
    (hv : s.i < 2 ^ s.len) :
    ∃ r : ℝ, bien s = .ok r ∧ 0 ≤ r ∧ r ≤ 1 := by
  have hd : ∀ j, j < s.len - 1 → DensityOk (mpz_bin_d_k s j) :=
    fun j hj => chain_densityOk s hu hv j (by omega)
  obtain ⟨h0, h1⟩ := bien_chain_bounds s hn hd
  exact ⟨bien_chain s, bien_of_chain_ok s hn hd, h0, h1⟩

theorem bien_in_unit_interval_witness :
    ∃ r : ℝ, bien ⟨0xb, 4⟩ = .ok r ∧ 0 ≤ r ∧ r ≤ 1 :=
  bien_in_unit_interval ⟨0xb, 4⟩ (by decide) (by decide) (by decide)

/-- C5: for every bit string `s` of length `n ≥ 2` with value below `2 ^ n`,
the loop of `tbien` ends with a denominator `l` equal to the sum of the weights
`log2(k+2)`, `k = 0..n-2`, which is at least 1, and `tbien s` returns `t / l`,
a number of the closed interval `[0, 1]`. -/
theorem tbien_in_unit_interval (s : mpz_bin) (hn : 2 ≤ s.len) (hu : s.len < UINT_MOD)
    (hv : s.i < 2 ^ s.len) :
    ∃ t l : ℝ, tbien_loop (usub s.len 1) 0 s 0 0 = .ok (t, l) ∧
      l = ∑ k in Finset.range (s.len - 1), Real.logb 2 ((k : ℝ) + 2) ∧ 1 ≤ l ∧
      tbien s = .ok (t / l) ∧ 0 ≤ t / l ∧ t / l ≤ 1 := by
  have hd : ∀ j, j < s.len - 1 → DensityOk (mpz_bin_d_k s j) :=
    fun j hj => chain_densityOk s hu hv j (by omega)
  obtain ⟨h0, h1⟩ := tbien_chain_bounds s hn hd
  exact ⟨_, _, tbien_loop_top s (by omega) hu hd, rfl, log_weights_ge_one _ (by omega),
    tbien_of_chain_ok s hn hu hd, h0, h1⟩

theorem tbien_in_unit_interval_witness :
    ∃ t l : ℝ, tbien_loop (usub 4 1) 0 ⟨0xb, 4⟩ 0 0 = .ok (t, l) ∧
      l = ∑ k in Finset.range (4 - 1), Real.logb 2 ((k : ℝ) + 2) ∧ 1 ≤ l ∧
      tbien ⟨0xb, 4⟩ = .ok (t / l) ∧ 0 ≤ t / l ∧ t / l ≤ 1 :=
  tbien_in_unit_interval ⟨0xb, 4⟩ (by decide) (by decide) (by decide)

/-- C6: constant strings score zero.  For every length `n ≥ 2`, `bien` and
`tbien` return exactly 0 on the all-zero string and on the all-one string
`2^n - 1`; the rows `(0x0, 2)`, `(0x3, 2)`, `(0x0, 4)`, `(0xf, 4)` and
`(0x00, 8)` of the demo table are such strings, their expected values are 0,
and both functions return 0 on them. -/
theorem constant_strings_score_zero :
    (∀ n, 2 ≤ n → n < UINT_MOD →
      bien ⟨0, n⟩ = .ok 0 ∧ bien ⟨2 ^ n - 1, n⟩ = .ok 0 ∧
      tbien ⟨0, n⟩ = .ok 0 ∧ tbien ⟨2 ^ n - 1, n⟩ = .ok 0) ∧
    (demo_row 0 = ⟨0x0, 2⟩ ∧ demo_row 3 = ⟨0x3, 2⟩ ∧ demo_row 4 = ⟨0x0, 4⟩ ∧
      demo_row 9 = ⟨0xf, 4⟩ ∧ demo_row 20 = ⟨0x00, 8⟩) ∧
    (∀ i ∈ [0, 3, 4, 9, 20],
      biens.getD i 1 = 0 ∧ tbiens.getD i 1 = 0 ∧
      bien (demo_row i) = .ok 0 ∧ tbien (demo_row i) = .ok 0) := by
  refine ⟨constant_strings_zero, ⟨rfl, rfl, rfl, rfl, rfl⟩, ?_⟩
  obtain ⟨a2, b2, c2, d2⟩ := constant_strings_zero 2 (by decide) (by decide)
  obtain ⟨a4, b4, c4, d4⟩ := constant_strings_zero 4 (by decide) (by decide)
  obtain ⟨a8, _, c8, _⟩ := constant_strings_zero 8 (by decide) (by decide)
  intro i hi
  simp only [List.mem_cons, List.mem_singleton, List.not_mem_nil, or_false] at hi
  rcases hi with rfl | rfl | rfl | rfl | rfl
  · exact ⟨by norm_num [biens], by norm_num [tbiens], a2, c2⟩
  · exact ⟨by norm_num [biens], by norm_num [tbiens], b2, d2⟩
  · exact ⟨by norm_num [biens], by norm_num [tbiens], a4, c4⟩
  · exact ⟨by norm_num [biens], by norm_num [tbiens], b4, d4⟩
  · exact ⟨by norm_num [biens], by norm_num [tbiens], a8, c8⟩

theorem constant_strings_score_zero_witness :
    bien ⟨0, 5⟩ = .ok 0 ∧ bien ⟨2 ^ 5 - 1, 5⟩ = .ok 0 ∧
      tbien ⟨0, 5⟩ = .ok 0 ∧ tbien ⟨2 ^ 5 - 1, 5⟩ = .ok 0 :=
  constant_strings_score_zero.1 5 (by decide) (by decide)

/-- C7 (the code at the lengths the claim names): for every value, a call
with length 1 runs no iteration and reaches the final division with a zero
divisor, `2^0 - 1` in `bien` and `l = 0` in `tbien`, where GMP stops with its
divide-by-zero fault; a call with length 0 enters the loop, the bound
`s.len - 1` having wrapped around, and stops in the first iteration on the
density `ones / 0`.  No length check precedes the computation. -/
theorem short_length_reaches_division_by_zero (v : Nat) :
    bien ⟨v, 1⟩ = .error .divideByZero ∧ tbien ⟨v, 1⟩ = .error .divideByZero ∧
    bien_loop (usub 1 1) 0 ⟨v, 1⟩ 0 = .ok 0 ∧
    bien ⟨v, 0⟩ = .error .invalidOperation ∧ tbien ⟨v, 0⟩ = .error .invalidOperation := by
  have hbad : ¬ DensityOk (mpz_bin_d_k ⟨v, 0⟩ 0) := fun h => Nat.lt_irrefl 0 h.1
  have hw : (0 : Nat) < usub 0 1 := by decide
  refine ⟨?_, ?_, rfl, ?_, ?_⟩
  · unfold bien
    have e : usub 1 1 = 0 := rfl
    simp [e, bien_loop, mpf_ui_div]
  · unfold tbien
    have e : usub 1 1 = 0 := rfl
    simp [e, tbien_loop, mpf_ui_div]
  · unfold bien
    rw [bien_loop_fault _ 0 ⟨v, 0⟩ 0 ⟨0, hw, hbad⟩]
  · unfold tbien
    rw [tbien_loop_fault _ 0 ⟨v, 0⟩ 0 0 ⟨0, hw, hbad⟩]

/-- C9: at length 2, `bien` and `tbien` return exactly 0, 1, 1, 0 on the inputs
`0x0`, `0x1`, `0x2`, `0x3`; the two functions agree on every 2-bit string, and
these are the values of rows 0 to 3 of the demo table. -/
theorem length_two_reference :
    (bien ⟨0x0, 2⟩ = .ok 0 ∧ bien ⟨0x1, 2⟩ = .ok 1 ∧ bien ⟨0x2, 2⟩ = .ok 1 ∧
      bien ⟨0x3, 2⟩ = .ok 0) ∧
    (tbien ⟨0x0, 2⟩ = .ok 0 ∧ tbien ⟨0x1, 2⟩ = .ok 1 ∧ tbien ⟨0x2, 2⟩ = .ok 1 ∧
      tbien ⟨0x3, 2⟩ = .ok 0) ∧
    (∀ v : Fin 4, bien ⟨v.val, 2⟩ = tbien ⟨v.val, 2⟩) ∧
    (∀ r : Fin 4, demo_row r.val = ⟨r.val, 2⟩ ∧
      bien (demo_row r.val) = .ok (demo_bien r.val) ∧
      tbien (demo_row r.val) = .ok (demo_tbien r.val)) := by
  obtain ⟨⟨b0, b1, b2, b3⟩, ⟨t0, t1, t2, t3⟩⟩ := len2_values
  refine ⟨⟨b0, b1, b2, b3⟩, ⟨t0, t1, t2, t3⟩, ?_, ?_⟩
  · intro v
    fin_cases v
    · exact b0.trans t0.symm
    · exact b1.trans t1.symm
    · exact b2.trans t2.symm
    · exact b3.trans t3.symm
  · have d0 : demo_bien 0 = 0 ∧ demo_tbien 0 = 0 := by
      constructor <;> norm_num [demo_bien, demo_tbien, biens, tbiens]
    have d1 : demo_bien 1 = 1 ∧ demo_tbien 1 = 1 := by
      constructor <;> norm_num [demo_bien, demo_tbien, biens, tbiens]
    have d2 : demo_bien 2 = 1 ∧ demo_tbien 2 = 1 := by
      constructor <;> norm_num [demo_bien, demo_tbien, biens, tbiens]
    have d3 : demo_bien 3 = 0 ∧ demo_tbien 3 = 0 := by
      constructor <;> norm_num [demo_bien, demo_tbien, biens, tbiens]
    intro r
    fin_cases r
    · exact ⟨rfl, by rw [d0.1]; exact b0, by rw [d0.2]; exact t0⟩
    · exact ⟨rfl, by rw [d1.1]; exact b1, by rw [d1.2]; exact t1⟩
    · exact ⟨rfl, by rw [d2.1]; exact b2, by rw [d2.2]; exact t2⟩
    · exact ⟨rfl, by rw [d3.1]; exact b3, by rw [d3.2]; exact t3⟩

/-- C10: for each of the 16 bit strings of length 4 (rows 4 to 19 of the demo
table hold every one of them), `bien` and `tbien` are within 0.005 of the
expected value of the table; in particular on `0x3` and on `0xc`, `bien` is
within 0.005 of 0.405 and `tbien` within 0.005 of 0.536. -/
theorem length_four_reference :
    (∀ r : Fin 16, (demo_row (r.val + 4)).len = 4 ∧ (demo_row (r.val + 4)).i < 2 ^ 4 ∧
      ∃ b t : ℝ, bien (demo_row (r.val + 4)) = .ok b ∧ tbien (demo_row (r.val + 4)) = .ok t ∧
        |b - demo_bien (r.val + 4)| ≤ 0.005 ∧ |t - demo_tbien (r.val + 4)| ≤ 0.005) ∧
    (∀ v : Fin 16, ∃ r : Fin 16, demo_row (r.val + 4) = ⟨v.val, 4⟩) ∧
    (∃ b t : ℝ, bien ⟨0x3, 4⟩ = .ok b ∧ tbien ⟨0x3, 4⟩ = .ok t ∧
      |b - 0.405| ≤ 0.005 ∧ |t - 0.536| ≤ 0.005) ∧
    (∃ b t : ℝ, bien ⟨0xc, 4⟩ = .ok b ∧ tbien ⟨0xc, 4⟩ = .ok t ∧
      |b - 0.405| ≤ 0.005 ∧ |t - 0.536| ≤ 0.005) :=
  ⟨fun r => len4_rows (r.val + 4) (by omega) (by omega), by decide, len4_row_5, len4_row_8⟩

/-! ## Length eight -/

theorem logb_two_five_seven_bounds :
    ((2321 : ℝ) / 1000 < Real.logb 2 5 ∧ Real.logb 2 5 < (2322 : ℝ) / 1000) ∧
    ((2807 : ℝ) / 1000 < Real.logb 2 7 ∧ Real.logb 2 7 < (2808 : ℝ) / 1000) := by
  have key : ∀ (b a c : ℕ), (2 : ℝ) ^ a < (b : ℝ) ^ 1000 → (b : ℝ) ^ 1000 < (2 : ℝ) ^ c →
      0 < b → (a : ℝ) / 1000 < Real.logb 2 b ∧ Real.logb 2 b < (c : ℝ) / 1000 := by
    intro b a c h1 h2 hb
    have hb0 : (0 : ℝ) < (b : ℝ) := by exact_mod_cast hb
    have l1 := Real.logb_lt_logb (b := 2) (by norm_num) (by positivity) h1
    have l2 := Real.logb_lt_logb (b := 2) (by norm_num) (by positivity) h2
    rw [Real.logb_pow, Real.logb_pow, logb_two_two] at l1 l2
    push_cast at l1 l2
    constructor
    · rw [div_lt_iff₀ (by norm_num)]; linarith
    · rw [lt_div_iff₀ (by norm_num)]; linarith
  have h5 := key 5 2321 2322 (by norm_num) (by norm_num) (by norm_num)
  have h7 := key 7 2807 2808 (by norm_num) (by norm_num) (by norm_num)
  simp only [Nat.cast_ofNat] at h5 h7
  exact ⟨h5, h7⟩

theorem logb_two_six_eight : Real.logb 2 6 = 1 + Real.logb 2 3 ∧ Real.logb 2 8 = 3 := by
  constructor
  · have h : (6 : ℝ) = 2 * 3 := by norm_num
    rw [h, Real.logb_mul (by norm_num) (by norm_num), logb_two_two]
  · have h : (8 : ℝ) = 2 ^ 3 := by norm_num
    rw [h, Real.logb_pow, logb_two_two]
    norm_num

/-- The entropy of a ratio `a / b` with `0 < a < b`, in logarithms of `a`,
`b - a` and `b`. -/
theorem shannonH_ratio (a b : ℝ) (ha : 0 < a) (hab : a < b) :
    shannonH (a / b)
      = Real.logb 2 b - a / b * Real.logb 2 a - (b - a) / b * Real.logb 2 (b - a) := by
  have hb : 0 < b := lt_trans ha hab
  have hba : 0 < b - a := by linarith
  have e : 1 - a / b = (b - a) / b := by field_simp
  have h0 : a / b ≠ 0 := ne_of_gt (div_pos ha hb)
  have h1 : a / b ≠ 1 := by
    intro h
    rw [div_eq_one_iff_eq (ne_of_gt hb)] at h
    linarith
  unfold shannonH
  rw [if_neg (by simp [h0, h1]), e, Real.logb_div (ne_of_gt ha) (ne_of_gt hb),
    Real.logb_div (ne_of_gt hba) (ne_of_gt hb)]
  field_simp
  ring

/-- Both aggregators on an in-range string of length eight, from the seven
set-bit counts along its chain. -/
theorem aggregators_len8 (v : Nat) (c : Nat → Nat) (hv : v < 256)
    (hc : ∀ k, k < 7 → mpz_popcount (mpz_bin_d_k ⟨v, 8⟩ k).i = c k) :
    bien ⟨v, 8⟩ = .ok ((shannonH ((c 0 : ℝ) / 8) + shannonH ((c 1 : ℝ) / 7) * 2
        + shannonH ((c 2 : ℝ) / 6) * 4 + shannonH ((c 3 : ℝ) / 5) * 8
        + shannonH ((c 4 : ℝ) / 4) * 16 + shannonH ((c 5 : ℝ) / 3) * 32
        + shannonH ((c 6 : ℝ) / 2) * 64) / 127) ∧
    tbien ⟨v, 8⟩ = .ok ((shannonH ((c 0 : ℝ) / 8)
        + shannonH ((c 1 : ℝ) / 7) * Real.logb 2 3
        + shannonH ((c 2 : ℝ) / 6) * 2 + shannonH ((c 3 : ℝ) / 5) * Real.logb 2 5
        + shannonH ((c 4 : ℝ) / 4) * (1 + Real.logb 2 3)
        + shannonH ((c 5 : ℝ) / 3) * Real.logb 2 7 + shannonH ((c 6 : ℝ) / 2) * 3)
        / (7 + 2 * Real.logb 2 3 + Real.logb 2 5 + Real.logb 2 7)) := by
  have hu : (8 : Nat) < UINT_MOD := by decide
  have hr : InRange ⟨v, 8⟩ := by unfold InRange; simpa using hv
  have h0 := hc 0 (by decide)
  have h1 := hc 1 (by decide)
  have h2 := hc 2 (by decide)
  have h3 := hc 3 (by decide)
  have h4 := hc 4 (by decide)
  have h5 := hc 5 (by decide)
  have h6 := hc 6 (by decide)
  obtain ⟨e6, e8⟩ := logb_two_six_eight
  constructor
  · rw [bien_inRange ⟨v, 8⟩ (show 2 ≤ 8 by decide) hu hr]
    unfold bien_spec
    simp only [Finset.sum_range_succ, Finset.sum_range_zero, Nat.reduceSub, h0, h1, h2, h3,
      h4, h5, h6]
    norm_num
  · rw [tbien_inRange ⟨v, 8⟩ (show 2 ≤ 8 by decide) hu hr]
    unfold tbien_spec tbien_T tbien_L
    simp only [Finset.sum_range_succ, Finset.sum_range_zero, Nat.reduceSub, h0, h1, h2, h3,
      h4, h5, h6]
    norm_num
    rw [logb_two_four, e6, e8]
    congr 1
    ring

theorem len8_row_21 : ∃ b t : ℝ, bien ⟨15, 8⟩ = .ok b ∧ tbien ⟨15, 8⟩ = .ok t ∧
    |b - 0.107| ≤ 0.005 ∧ |t - 0.394| ≤ 0.005 := by
  have key : ∀ x3 x5 x7 a0 a1 a2 : ℝ,
      (1584 : ℝ) / 1000 < x3 → x3 < (1585 : ℝ) / 1000 →
      (2321 : ℝ) / 1000 < x5 → x5 < (2322 : ℝ) / 1000 →
      (2807 : ℝ) / 1000 < x7 → x7 < (2808 : ℝ) / 1000 →
      a0 = (-6 : ℝ) / 7 + (1 : ℝ) / 1 * x7 + (-6 : ℝ) / 7 * x3 →
      a1 = (-2 : ℝ) / 3 + (1 : ℝ) / 1 * x3 →
      a2 = (-2 : ℝ) / 5 + (1 : ℝ) / 1 * x5 + (-3 : ℝ) / 5 * x3 →
      |(1 + a0 * 2 + a1 * 4 + a2 * 8 + 0 * 16 + 0 * 32 + 0 * 64) / 127 - 0.107| ≤ 0.005 ∧
      |(1 + a0 * x3 + a1 * 2 + a2 * x5 + 0 * (1 + x3) + 0 * x7 + 0 * 3) / (7 + 2 * x3 + x5 + x7) - 0.394| ≤ 0.005 := by
    intro x3 x5 x7 a0 a1 a2 h3lo h3hi h5lo h5hi h7lo h7hi v0 v1 v2
    have p1l : (409761 : ℝ) / 437500 ≤ a0 * x3 := by
      calc (409761 : ℝ) / 437500 = ((4139 : ℝ) / 7000) * ((198 : ℝ) / 125) := by norm_num
        _ ≤ a0 * x3 := mul_le_mul (by linarith) (by linarith) (by norm_num) (by linarith)
    have p1u : a0 * x3 ≤ (164523 : ℝ) / 175000 := by
      calc a0 * x3 ≤ ((519 : ℝ) / 875) * ((317 : ℝ) / 200) :=
          mul_le_mul (by linarith) (by linarith) (by linarith) (by norm_num)
        _ = (164523 : ℝ) / 175000 := by norm_num
    have p3l : (225137 : ℝ) / 100000 ≤ a2 * x5 := by
      calc (225137 : ℝ) / 100000 = ((97 : ℝ) / 100) * ((2321 : ℝ) / 1000) := by norm_num
        _ ≤ a2 * x5 := mul_le_mul (by linarith) (by linarith) (by norm_num) (by linarith)
    have p3u : a2 * x5 ≤ (2820069 : ℝ) / 1250000 := by
      calc a2 * x5 ≤ ((2429 : ℝ) / 2500) * ((1161 : ℝ) / 500) :=
          mul_le_mul (by linarith) (by linarith) (by linarith) (by norm_num)
        _ = (2820069 : ℝ) / 1250000 := by norm_num
    have hD : (0 : ℝ) < 7 + 2 * x3 + x5 + x7 := by linarith
    exact ⟨abs_div_sub_le _ _ _ _ (by norm_num) (by linarith) (by linarith),
      abs_div_sub_le _ _ _ _ hD (by linarith) (by linarith)⟩
  obtain ⟨hb, ht⟩ := aggregators_len8 15 (fun k => [4, 1, 2, 2, 4, 0, 0].getD k 0) (by decide) (by decide)
  obtain ⟨⟨h5lo, h5hi⟩, ⟨h7lo, h7hi⟩⟩ := logb_two_five_seven_bounds
  obtain ⟨e6, -⟩ := logb_two_six_eight
  have v0 : shannonH (1 / 7) = (-6 : ℝ) / 7 + (1 : ℝ) / 1 * Real.logb 2 7 + (-6 : ℝ) / 7 * Real.logb 2 3 := by
    rw [shannonH_ratio 1 7 (by norm_num) (by norm_num)]
    norm_num [logb_two_four, e6]
    ring
  have v1 : shannonH (1 / 3) = (-2 : ℝ) / 3 + (1 : ℝ) / 1 * Real.logb 2 3 := by
    rw [shannonH_ratio 1 3 (by norm_num) (by norm_num)]
    norm_num [logb_two_four, e6]
    ring
  have v2 : shannonH (2 / 5) = (-2 : ℝ) / 5 + (1 : ℝ) / 1 * Real.logb 2 5 + (-3 : ℝ) / 5 * Real.logb 2 3 := by
    rw [shannonH_ratio 2 5 (by norm_num) (by norm_num)]
    norm_num [logb_two_four, e6]
    ring
  have hk := key _ _ _ _ _ _ logb_two_three_gt logb_two_three_lt h5lo h5hi h7lo h7hi v0 v1 v2
  refine ⟨_, _, hb, ht, ?_, ?_⟩
  · convert hk.1 using 3
    norm_num [shannonH_half, shannonH_zero, shannonH_one]
  · convert hk.2 using 3
    norm_num [shannonH_half, shannonH_zero, shannonH_one]

theorem len8_row_22 : ∃ b t : ℝ, bien ⟨5, 8⟩ = .ok b ∧ tbien ⟨5, 8⟩ = .ok t ∧
    |b - 0.230| ≤ 0.005 ∧ |t - 0.556| ≤ 0.005 := by
  have key : ∀ x3 x5 x7 a0 a1 a2 a3 : ℝ,
      (1584 : ℝ) / 1000 < x3 → x3 < (1585 : ℝ) / 1000 →
      (2321 : ℝ) / 1000 < x5 → x5 < (2322 : ℝ) / 1000 →
      (2807 : ℝ) / 1000 < x7 → x7 < (2808 : ℝ) / 1000 →
      a0 = (2 : ℝ) / 1 + (-3 : ℝ) / 4 * x3 →
      a1 = (-8 : ℝ) / 7 + (1 : ℝ) / 1 * x7 + (-3 : ℝ) / 7 * x3 →
      a2 = (1 : ℝ) / 1 + (1 : ℝ) / 1 * x3 + (-5 : ℝ) / 6 * x5 →
      a3 = (-2 : ℝ) / 5 + (1 : ℝ) / 1 * x5 + (-3 : ℝ) / 5 * x3 →
      |(a0 + a1 * 2 + a2 * 4 + a3 * 8 + 1 * 16 + 0 * 32 + 0 * 64) / 127 - 0.230| ≤ 0.005 ∧
      |(a0 + a1 * x3 + a2 * 2 + a3 * x5 + 1 * (1 + x3) + 0 * x7 + 0 * 3) / (7 + 2 * x3 + x5 + x7) - 0.556| ≤ 0.005 := by
    intro x3 x5 x7 a0 a1 a2 a3 h3lo h3hi h5lo h5hi h7lo h7hi v0 v1 v2 v3
    have p1l : (341253 : ℝ) / 218750 ≤ a1 * x3 := by
      calc (341253 : ℝ) / 218750 = ((3447 : ℝ) / 3500) * ((198 : ℝ) / 125) := by norm_num
        _ ≤ a1 * x3 := mul_le_mul (by linarith) (by linarith) (by norm_num) (by linarith)
    have p1u : a1 * x3 ≤ (273571 : ℝ) / 175000 := by
      calc a1 * x3 ≤ ((863 : ℝ) / 875) * ((317 : ℝ) / 200) :=
          mul_le_mul (by linarith) (by linarith) (by linarith) (by norm_num)
        _ = (273571 : ℝ) / 175000 := by norm_num
    have p3l : (225137 : ℝ) / 100000 ≤ a3 * x5 := by
      calc (225137 : ℝ) / 100000 = ((97 : ℝ) / 100) * ((2321 : ℝ) / 1000) := by norm_num
        _ ≤ a3 * x5 := mul_le_mul (by linarith) (by linarith) (by norm_num) (by linarith)
    have p3u : a3 * x5 ≤ (2820069 : ℝ) / 1250000 := by
      calc a3 * x5 ≤ ((2429 : ℝ) / 2500) * ((1161 : ℝ) / 500) :=
          mul_le_mul (by linarith) (by linarith) (by linarith) (by norm_num)
        _ = (2820069 : ℝ) / 1250000 := by norm_num
    have hD : (0 : ℝ) < 7 + 2 * x3 + x5 + x7 := by linarith
    exact ⟨abs_div_sub_le _ _ _ _ (by norm_num) (by linarith) (by linarith),
      abs_div_sub_le _ _ _ _ hD (by linarith) (by linarith)⟩
  obtain ⟨hb, ht⟩ := aggregators_len8 5 (fun k => [2, 3, 1, 2, 2, 3, 0].getD k 0) (by decide) (by decide)
  obtain ⟨⟨h5lo, h5hi⟩, ⟨h7lo, h7hi⟩⟩ := logb_two_five_seven_bounds
  obtain ⟨e6, -⟩ := logb_two_six_eight
  have v0 : shannonH (1 / 4) = (2 : ℝ) / 1 + (-3 : ℝ) / 4 * Real.logb 2 3 := by
    rw [shannonH_ratio 1 4 (by norm_num) (by norm_num)]
    norm_num [logb_two_four, e6]
    ring
  have v1 : shannonH (3 / 7) = (-8 : ℝ) / 7 + (1 : ℝ) / 1 * Real.logb 2 7 + (-3 : ℝ) / 7 * Real.logb 2 3 := by
    rw [shannonH_ratio 3 7 (by norm_num) (by norm_num)]
    norm_num [logb_two_four, e6]
    ring
  have v2 : shannonH (1 / 6) = (1 : ℝ) / 1 + (1 : ℝ) / 1 * Real.logb 2 3 + (-5 : ℝ) / 6 * Real.logb 2 5 := by
    rw [shannonH_ratio 1 6 (by norm_num) (by norm_num)]
    norm_num [logb_two_four, e6]
    ring
  have v3 : shannonH (2 / 5) = (-2 : ℝ) / 5 + (1 : ℝ) / 1 * Real.logb 2 5 + (-3 : ℝ) / 5 * Real.logb 2 3 := by
    rw [shannonH_ratio 2 5 (by norm_num) (by norm_num)]
    norm_num [logb_two_four, e6]
    ring
  have hk := key _ _ _ _ _ _ _ logb_two_three_gt logb_two_three_lt h5lo h5hi h7lo h7hi v0 v1 v2 v3
  refine ⟨_, _, hb, ht, ?_, ?_⟩
  · convert hk.1 using 3
    norm_num [shannonH_half, shannonH_zero, shannonH_one]
  · convert hk.2 using 3
    norm_num [shannonH_half, shannonH_zero, shannonH_one]

/-- C11: at length 8, on input `0x0f` `bien` is within 0.005 of 0.107 and
`tbien` within 0.005 of 0.394; on input `0x05` `bien` is within 0.005 of 0.230
and `tbien` within 0.005 of 0.556.  These are rows 21 and 22 of the demo
table. -/
theorem length_eight_reference :
    (∃ b t : ℝ, bien ⟨0x0f, 8⟩ = .ok b ∧ tbien ⟨0x0f, 8⟩ = .ok t ∧
      |b - 0.107| ≤ 0.005 ∧ |t - 0.394| ≤ 0.005) ∧
    (∃ b t : ℝ, bien ⟨0x05, 8⟩ = .ok b ∧ tbien ⟨0x05, 8⟩ = .ok t ∧
      |b - 0.230| ≤ 0.005 ∧ |t - 0.556| ≤ 0.005) ∧
    (demo_row 21 = ⟨0x0f, 8⟩ ∧ demo_bien 21 = 0.107 ∧ demo_tbien 21 = 0.394) ∧
    (demo_row 22 = ⟨0x05, 8⟩ ∧ demo_bien 22 = 0.230 ∧ demo_tbien 22 = 0.556) := by
  refine ⟨len8_row_21, len8_row_22, ⟨rfl, ?_, ?_⟩, ⟨rfl, ?_, ?_⟩⟩ <;>
    norm_num [demo_bien, demo_tbien, biens, tbiens]

/-! ## Set-bit counts of constant and of flipped strings -/

theorem popcount_sum_eq_zero (n a : Nat) (h : a < 2 ^ n) (h0 : mpz_popcount a = 0) : a = 0 := by
  rw [mpz_popcount_eq_sum n a h] at h0
  apply Nat.eq_of_testBit_eq
  intro j
  rw [Nat.zero_testBit]
  by_cases hj : j < n
  · have := (Finset.sum_eq_zero_iff.mp h0) j (Finset.mem_range.mpr hj)
    by_contra hc
    simp [hc] at this
  · exact Nat.testBit_lt_two_pow
      (lt_of_lt_of_le h (Nat.pow_le_pow_right (by norm_num) (by omega)))

theorem popcount_sum_eq_len (n a : Nat) (h : a < 2 ^ n) (hn : mpz_popcount a = n) :
    a = 2 ^ n - 1 := by
  rw [mpz_popcount_eq_sum n a h] at hn
  apply Nat.eq_of_testBit_eq
  intro j
  rw [Nat.testBit_two_pow_sub_one]
  by_cases hj : j < n
  · simp only [hj, decide_True]
    by_contra hc
    have hlt : ∑ i in Finset.range n, (if a.testBit i then 1 else 0)
        < ∑ _i in Finset.range n, 1 := by
      apply Finset.sum_lt_sum
      · intro i _; split <;> omega
      · exact ⟨j, Finset.mem_range.mpr hj, by simp [hc]⟩
    rw [hn] at hlt
    simp at hlt
  · simp only [hj, decide_False]
    exact Nat.testBit_lt_two_pow
      (lt_of_lt_of_le h (Nat.pow_le_pow_right (by norm_num) (by omega)))

theorem popcount_compl (n a : Nat) (h : a < 2 ^ n) :
    mpz_popcount (2 ^ n - 1 - a) + mpz_popcount a = n := by
  have hc : 2 ^ n - 1 - a < 2 ^ n := by omega
  rw [mpz_popcount_eq_sum n _ hc, mpz_popcount_eq_sum n a h, ← Finset.sum_add_distrib]
  rw [Finset.sum_congr rfl (g := fun _ => 1)]
  · simp
  · intro j hj
    have e : 2 ^ n - 1 - a = 2 ^ n - (a + 1) := by omega
    rw [e, Nat.testBit_two_pow_sub_succ h]
    have := Finset.mem_range.mp hj
    cases a.testBit j <;> simp [this]

theorem mpz_bin_d_compl (s : mpz_bin) (hn : 1 ≤ s.len) (hs : InRange s) :
    mpz_bin_d (mpz_bin_compl s) = mpz_bin_d s := by
  unfold InRange at hs
  have hi : (mpz_bin_d (mpz_bin_compl s)).i = (mpz_bin_d s).i := by
    apply Nat.eq_of_testBit_eq
    intro j
    have e : 2 ^ s.len - 1 - s.i = 2 ^ s.len - (s.i + 1) := by omega
    rw [testBit_mpz_bin_d, testBit_mpz_bin_d]
    simp only [mpz_bin_compl, e, Nat.testBit_two_pow_sub_succ hs, usub_one_eq hn]
    by_cases h1 : j + 1 < s.len
    · have h2 : j < s.len := by omega
      have h3 : j ≠ s.len - 1 := by omega
      cases s.i.testBit j <;> cases s.i.testBit (j + 1) <;> simp [h1, h2, h3]
    · have hhi : s.i.testBit (j + 1) = false :=
        Nat.testBit_lt_two_pow
          (lt_of_lt_of_le hs (Nat.pow_le_pow_right (by norm_num) (by omega)))
      by_cases h2 : j < s.len
      · have h3 : ¬ (j ≠ s.len - 1) := by omega
        simp [h1, h2, h3, hhi]
      · have hlo : s.i.testBit j = false :=
          Nat.testBit_lt_two_pow
            (lt_of_lt_of_le hs (Nat.pow_le_pow_right (by norm_num) (by omega)))
        simp [h1, h2, hhi, hlo]
  have hl : (mpz_bin_d (mpz_bin_compl s)).len = (mpz_bin_d s).len := rfl
  cases hd : mpz_bin_d (mpz_bin_compl s) with
  | mk i len =>
    cases hd2 : mpz_bin_d s with
    | mk i2 len2 =>
      rw [hd, hd2] at hi hl
      simp only at hi hl
      rw [hi, hl]

/-! ## Reversal -/

theorem bit_reverse_lt (n v : Nat) : bit_reverse n v < 2 ^ n := by
  induction n generalizing v with
  | zero => simp [bit_reverse]
  | succ n ih =>
    have h1 := ih (v / 2)
    have h2 : v % 2 < 2 := Nat.mod_lt _ (by norm_num)
    have h3 : 2 ^ n * (v % 2) ≤ 2 ^ n * 1 := Nat.mul_le_mul_left _ (by omega)
    simp only [bit_reverse, pow_succ]
    omega

theorem testBit_bit_reverse (n v j : Nat) :
    (bit_reverse n v).testBit j = (decide (j < n) && v.testBit (n - 1 - j)) := by
  induction n generalizing v with
  | zero => simp [bit_reverse]
  | succ n ih =>
    simp only [bit_reverse]
    rw [Nat.testBit_mul_pow_two_add _ (bit_reverse_lt n (v / 2))]
    by_cases hj : j < n
    · have e : n + 1 - 1 - j = (n - 1 - j) + 1 := by omega
      simp only [hj, if_true, ih, decide_True, Bool.true_and, e, Nat.testBit_div_two,
        show j < n + 1 from by omega]
    · simp only [hj, if_false]
      by_cases hj2 : j = n
      · subst hj2
        simp [Nat.testBit_zero]
      · have h3 : ¬ j < n + 1 := by omega
        have h4 : j - n ≠ 0 := by omega
        simp only [h3, decide_False, Bool.false_and]
        rcases Nat.mod_two_eq_zero_or_one v with h | h
        · simp [h]
        · rw [h]
          obtain ⟨m, hm⟩ : ∃ m, j - n = m + 1 := ⟨j - n - 1, by omega⟩
          rw [hm, Nat.testBit_succ]
          simp

theorem popcount_bit_reverse (n v : Nat) (h : v < 2 ^ n) :
    mpz_popcount (bit_reverse n v) = mpz_popcount v := by
  rw [mpz_popcount_eq_sum n _ (bit_reverse_lt n v), mpz_popcount_eq_sum n v h,
    ← Finset.sum_range_reflect (fun j => if v.testBit j then 1 else 0) n]
  apply Finset.sum_congr rfl
  intro j hj
  have := Finset.mem_range.mp hj
  simp [testBit_bit_reverse, this]

theorem mpz_bin_d_rev (s : mpz_bin) (hn : 1 ≤ s.len) :
    mpz_bin_d (mpz_bin_rev s) = mpz_bin_rev (mpz_bin_d s) := by
  have hi : (mpz_bin_d (mpz_bin_rev s)).i = (mpz_bin_rev (mpz_bin_d s)).i := by
    apply Nat.eq_of_testBit_eq
    intro j
    rw [testBit_mpz_bin_d]
    simp only [mpz_bin_rev, testBit_bit_reverse, mpz_bin_d_len, testBit_mpz_bin_d,
      usub_one_eq hn]
    by_cases h1 : j < s.len - 1
    · have h2 : j < s.len := by omega
      have h3 : j ≠ s.len - 1 := by omega
      have h4 : j + 1 < s.len := by omega
      have h5 : s.len - 1 - 1 - j ≠ s.len - 1 := by omega
      have e1 : s.len - 1 - (j + 1) = s.len - 1 - 1 - j := by omega
      have e2 : s.len - 1 - 1 - j + 1 = s.len - 1 - j := by omega
      simp only [h1, h2, h3, h4, h5, e1, e2, decide_True, Bool.true_and, ne_eq,
        not_false_eq_true, Bool.and_true]
      cases s.i.testBit (s.len - 1 - j) <;> cases s.i.testBit (s.len - 1 - 1 - j) <;> rfl
    · have h4 : ¬ j + 1 < s.len := by omega
      by_cases h2 : j < s.len
      · have h3 : ¬ (j ≠ s.len - 1) := by omega
        simp [h1, h2, h4, h3]
      · simp [h1, h2, h4]
  have hl : (mpz_bin_d (mpz_bin_rev s)).len = (mpz_bin_rev (mpz_bin_d s)).len := rfl
  cases hd : mpz_bin_d (mpz_bin_rev s) with
  | mk i len =>
    cases hd2 : mpz_bin_rev (mpz_bin_d s) with
    | mk i2 len2 =>
      rw [hd, hd2] at hi hl
      simp only at hi hl
      rw [hi, hl]
/-! ## The loops as machines -/

/-- A loop whose condition fails stops at once, whatever the fuel. -/
theorem for_loop_exit {σ : Type} (cond : σ → Bool) (body : σ → Except GmpFault σ)
    (fuel : Nat) (st : σ) (c : Nat) (h : cond st = false) :
    for_loop cond body fuel st c = .ok (some (st, c)) := by
  cases fuel <;> simp [for_loop, h]

/-- A loop that makes `j` passes through the states `iter 0`, ..., `iter j`. -/
theorem for_loop_passes {σ : Type} (cond : σ → Bool) (body : σ → Except GmpFault σ) :
    ∀ (j : Nat) (iter : Nat → σ),
      (∀ i, i < j → cond (iter i) = true ∧ body (iter i) = .ok (iter (i + 1))) →
      ∀ f c, for_loop cond body (j + f) (iter 0) c = for_loop cond body f (iter j) (c + j) := by
  intro j
  induction j with
  | zero => intro iter _ f c; simp
  | succ j ih =>
    intro iter h f c
    obtain ⟨h1, h2⟩ := h 0 (by omega)
    have e : j + 1 + f = (j + f) + 1 := by omega
    rw [e]
    simp only [for_loop, h1, if_true, h2]
    rw [ih (fun i => iter (i + 1)) (fun i hi => h (i + 1) (by omega)) f (c + 1)]
    congr 1
    omega

/-- A loop whose passes each lower a measure that is zero only where the
condition fails never uses up a fuel of at least that measure. -/
theorem for_loop_fuel {σ : Type} (cond : σ → Bool) (body : σ → Except GmpFault σ)
    (μ : σ → Nat) (hpos : ∀ st, cond st = true → 0 < μ st)
    (hμ : ∀ st st', cond st = true → body st = .ok st' → μ st' < μ st) :
    ∀ (fuel : Nat) (st : σ) (c : Nat), μ st ≤ fuel →
      for_loop cond body fuel st c ≠ .ok none := by
  intro fuel
  induction fuel with
  | zero =>
    intro st c h
    by_cases hc : cond st = true
    · have := hpos st hc
      omega
    · simp [for_loop, hc]
  | succ fuel ih =>
    intro st c h
    by_cases hc : cond st = true
    · cases hb : body st with
      | error e => simp [for_loop, hc, hb]
      | ok st' =>
        simp only [for_loop, hc, if_true, hb]
        exact ih st' (c + 1) (by have := hμ st st' hc hb; omega)
    · simp [for_loop, hc]

/-- One pass of either loop on a string whose density is a number of `[0, 1]`. -/
theorem loop_body_ok (k : Nat) (s_k : mpz_bin) (t l : ℝ) (h : DensityOk s_k)
    (hk : k + 2 < UINT_MOD) :
    bien_body (k, s_k, t) = .ok (k + 1, mpz_bin_d s_k,
      t + shannonH ((ones s_k : ℝ) / (s_k.len : ℝ)) * 2 ^ k) ∧
    tbien_body (k, s_k, t, l) = .ok (k + 1, mpz_bin_d s_k,
      t + shannonH ((ones s_k : ℝ) / (s_k.len : ℝ)) * Real.logb 2 ((k : ℝ) + 2),
      l + Real.logb 2 ((k : ℝ) + 2)) := by
  have e1 : uadd k 1 = k + 1 := uadd_eq (by omega)
  constructor
  · simp only [bien_body, entropy_term_of_densityOk s_k h, mpf_set_d, e1]
  · simp only [tbien_body, log2_weight k hk]
    simp only [entropy_term_of_densityOk s_k h, mpf_set_d, e1]

/-- The variables of the loop of `bien` after `i` passes on input `s`. -/
theorem bien_for_passes (s : mpz_bin) (hn : 1 ≤ s.len) (hu : s.len < UINT_MOD) (j : Nat)
    (hj : j ≤ s.len - 1) (hd : ∀ i, i < j → DensityOk (mpz_bin_d_k s i)) (f : Nat) :
    bien_for s (j + f) = for_loop (fun st => loop_cond s st.1) bien_body f
      (j, mpz_bin_d_k s j, ∑ i in Finset.range j, chain_entropy s i * 2 ^ i) j := by
  have hb : usub s.len 1 = s.len - 1 := usub_one_eq hn
  have key := for_loop_passes (fun st : Nat × mpz_bin × ℝ => loop_cond s st.1) bien_body j
    (fun i => (i, mpz_bin_d_k s i, ∑ m in Finset.range i, chain_entropy s m * 2 ^ m))
    (fun i hi => by
      refine ⟨by simp only [loop_cond, decide_eq_true_eq]; omega, ?_⟩
      dsimp only
      rw [(loop_body_ok i (mpz_bin_d_k s i) _ 0 (hd i hi) (by omega)).1,
        Finset.sum_range_succ]
      rfl) f 0
  simp only [Finset.range_zero, Finset.sum_empty, zero_add] at key
  exact key

/-- The variables of the loop of `tbien` after `i` passes on input `s`. -/
theorem tbien_for_passes (s : mpz_bin) (hn : 1 ≤ s.len) (hu : s.len < UINT_MOD) (j : Nat)
    (hj : j ≤ s.len - 1) (hd : ∀ i, i < j → DensityOk (mpz_bin_d_k s i)) (f : Nat) :
    tbien_for s (j + f) = for_loop (fun st => loop_cond s st.1) tbien_body f
      (j, mpz_bin_d_k s j,
        ∑ i in Finset.range j, chain_entropy s i * Real.logb 2 ((i : ℝ) + 2),
        ∑ i in Finset.range j, Real.logb 2 ((i : ℝ) + 2)) j := by
  have hb : usub s.len 1 = s.len - 1 := usub_one_eq hn
  have key := for_loop_passes (fun st : Nat × mpz_bin × ℝ × ℝ => loop_cond s st.1)
    tbien_body j
    (fun i => (i, mpz_bin_d_k s i,
      ∑ m in Finset.range i, chain_entropy s m * Real.logb 2 ((m : ℝ) + 2),
      ∑ m in Finset.range i, Real.logb 2 ((m : ℝ) + 2)))
    (fun i hi => by
      refine ⟨by simp only [loop_cond, decide_eq_true_eq]; omega, ?_⟩
      dsimp only
      rw [(loop_body_ok i (mpz_bin_d_k s i) _ _ (hd i hi) (by omega)).2,
        Finset.sum_range_succ, Finset.sum_range_succ]
      rfl) f 0
  simp only [Finset.range_zero, Finset.sum_empty, zero_add] at key
  exact key

/-- One pass of either loop on a string whose density is not a number of
`[0, 1]`: GMP stops on the entropy term. -/
theorem loop_body_fault (k : Nat) (s_k : mpz_bin) (t l : ℝ) (h : ¬ DensityOk s_k) :
    bien_body (k, s_k, t) = .error .invalidOperation ∧
    tbien_body (k, s_k, t, l) = .error .invalidOperation := by
  constructor
  · simp only [bien_body, entropy_term_of_not_densityOk s_k h, mpf_set_d]
  · rcases log2_weight_fault k with ⟨v, hv⟩ | hv
    · simp only [tbien_body, hv]
      simp only [entropy_term_of_not_densityOk s_k h, mpf_set_d]
    · simp only [tbien_body, hv]

/-- Both loops stop in pass `j`, after `j` full passes, when the `j`-th string
of the chain is the first whose density is not a number of `[0, 1]`. -/
theorem loops_abort (s : mpz_bin) (hn : 1 ≤ s.len) (hu : s.len < UINT_MOD) (j : Nat)
    (hj : j < s.len - 1) (hd : ∀ i, i < j → DensityOk (mpz_bin_d_k s i))
    (hbad : ¬ DensityOk (mpz_bin_d_k s j)) :
    (∀ fuel, j < fuel → bien_for s fuel = .error .invalidOperation ∧
      tbien_for s fuel = .error .invalidOperation) ∧
    (∀ fuel, fuel ≤ j → bien_for s fuel = .ok none ∧ tbien_for s fuel = .ok none) := by
  have hb : usub s.len 1 = s.len - 1 := usub_one_eq hn
  constructor
  · intro fuel hf
    obtain ⟨f, rfl⟩ : ∃ f, fuel = j + (f + 1) := ⟨fuel - j - 1, by omega⟩
    have hc : loop_cond s j = true := by
      simp only [loop_cond, decide_eq_true_eq]; omega
    constructor
    · rw [bien_for_passes s hn hu j (by omega) hd (f + 1)]
      simp only [for_loop, hc, if_true, (loop_body_fault j _ _ 0 hbad).1]
    · rw [tbien_for_passes s hn hu j (by omega) hd (f + 1)]
      simp only [for_loop, hc, if_true, (loop_body_fault j _ _ _ hbad).2]
  · intro fuel hf
    have hc : loop_cond s fuel = true := by
      simp only [loop_cond, decide_eq_true_eq]; omega
    have hd' : ∀ i, i < fuel → DensityOk (mpz_bin_d_k s i) := fun i hi => hd i (by omega)
    constructor
    · have := bien_for_passes s hn hu fuel (by omega) hd' 0
      rw [Nat.add_zero] at this
      rw [this]
      simp only [for_loop, hc, if_true]
    · have := tbien_for_passes s hn hu fuel (by omega) hd' 0
      rw [Nat.add_zero] at this
      rw [this]
      simp only [for_loop, hc, if_true]

/-- Neither loop uses up a fuel of `s.len - 1` passes, on any input. -/
theorem loops_terminate (s : mpz_bin) (hu : s.len < UINT_MOD) (fuel : Nat)
    (hf : usub s.len 1 ≤ fuel) :
    bien_for s fuel ≠ .ok none ∧ tbien_for s fuel ≠ .ok none := by
  have hb : usub s.len 1 < UINT_MOD := by
    unfold usub
    split <;> omega
  constructor
  · apply for_loop_fuel _ _ (fun st => usub s.len 1 - st.1)
    · intro st hc
      simp only [loop_cond, decide_eq_true_eq] at hc
      omega
    · intro st st' hc hbody
      simp only [loop_cond, decide_eq_true_eq] at hc
      have e1 : uadd st.1 1 = st.1 + 1 := uadd_eq (by omega)
      unfold bien_body at hbody
      split at hbody
      · cases hbody
      · cases hbody
        simp only [e1]
        omega
    · exact hf
  · apply for_loop_fuel _ _ (fun st => usub s.len 1 - st.1)
    · intro st hc
      simp only [loop_cond, decide_eq_true_eq] at hc
      omega
    · intro st st' hc hbody
      simp only [loop_cond, decide_eq_true_eq] at hc
      have e1 : uadd st.1 1 = st.1 + 1 := uadd_eq (by omega)
      unfold tbien_body at hbody
      split at hbody
      · cases hbody
      · split at hbody
        · cases hbody
        · cases hbody
          simp only [e1]
          omega
    · exact hf

/-- The length along the chain, whatever the value. -/
theorem chain_len (x : mpz_bin) : ∀ k, k ≤ x.len → (mpz_bin_d_k x k).len = x.len - k := by
  intro k
  induction k with
  | zero => intro _; rfl
  | succ k ih =>
    intro hk
    have hl := ih (by omega)
    change (mpz_bin_d (mpz_bin_d_k x k)).len = _
    rw [mpz_bin_d_len, usub_one_eq (by omega), hl]
    omega

/-! ## The claims on the derivative, the entropy term and the loops -/

/-- C12: for every bit string `x` with `x.len ≥ 2`, the length of
`mpz_bin_d x` is exactly `x.len - 1`. -/
theorem mpz_bin_d_length_law (x : mpz_bin) (hn : 2 ≤ x.len) :
    (mpz_bin_d x).len = x.len - 1 := by
  rw [mpz_bin_d_len, usub_one_eq (by omega)]

theorem mpz_bin_d_length_law_witness : (mpz_bin_d ⟨0b0110, 4⟩).len = 4 - 1 :=
  mpz_bin_d_length_law ⟨0b0110, 4⟩ (by decide)

/-- C13: the derivative keeps the invariant of a bit string: for `x` with
`x.len ≥ 2` and `x.i < 2 ^ x.len`, the output `r = mpz_bin_d x` has
`r.i < 2 ^ r.len`.  Consequently the string `s_k` that either loop holds after
`j ≤ x.len - 1` passes, which is the `j`-th string of the chain, has a value
below `2 ^ length` and a set-bit count of at most its length. -/
theorem derivative_keeps_range (x : mpz_bin) (hn : 2 ≤ x.len) (hu : x.len < UINT_MOD)
    (hv : x.i < 2 ^ x.len) :
    (mpz_bin_d x).i < 2 ^ (mpz_bin_d x).len ∧
    (∀ k, k < x.len → (mpz_bin_d_k x k).i < 2 ^ (mpz_bin_d_k x k).len ∧
      mpz_popcount (mpz_bin_d_k x k).i ≤ (mpz_bin_d_k x k).len) ∧
    (∀ j f, j ≤ x.len - 1 → ∃ (s_k : mpz_bin) (t t' l : ℝ),
      bien_for x (j + f)
        = for_loop (fun st => loop_cond x st.1) bien_body f (j, s_k, t) j ∧
      tbien_for x (j + f)
        = for_loop (fun st => loop_cond x st.1) tbien_body f (j, s_k, t', l) j ∧
      s_k.i < 2 ^ s_k.len ∧ mpz_popcount s_k.i ≤ s_k.len) := by
  have hchain : ∀ k, k < x.len → (mpz_bin_d_k x k).i < 2 ^ (mpz_bin_d_k x k).len ∧
      mpz_popcount (mpz_bin_d_k x k).i ≤ (mpz_bin_d_k x k).len := by
    intro k hk
    obtain ⟨_, hr⟩ := chain_invariant x hv k hk
    exact ⟨hr, mpz_popcount_le _ _ hr⟩
  refine ⟨mpz_bin_d_inRange x (by omega) hv, hchain, ?_⟩
  intro j f hj
  have hd : ∀ i, i < j → DensityOk (mpz_bin_d_k x i) :=
    fun i hi => chain_densityOk x hu hv i (by omega)
  exact ⟨mpz_bin_d_k x j, _, _, _, bien_for_passes x (by omega) hu j hj hd f,
    tbien_for_passes x (by omega) hu j hj hd f, hchain j (by omega)⟩

theorem derivative_keeps_range_witness :
    (mpz_bin_d ⟨0xb, 4⟩).i < 2 ^ (mpz_bin_d ⟨0xb, 4⟩).len ∧
    (∀ k, k < 4 → (mpz_bin_d_k ⟨0xb, 4⟩ k).i < 2 ^ (mpz_bin_d_k ⟨0xb, 4⟩ k).len ∧
      mpz_popcount (mpz_bin_d_k ⟨0xb, 4⟩ k).i ≤ (mpz_bin_d_k ⟨0xb, 4⟩ k).len) :=
  ⟨(derivative_keeps_range ⟨0xb, 4⟩ (by decide) (by decide) (by decide)).1,
   (derivative_keeps_range ⟨0xb, 4⟩ (by decide) (by decide) (by decide)).2.1⟩

/-- C15: for every bit string of length `m ≥ 1` with value below `2 ^ m`, the
term `e + g` that `bien` and `tbien` compute from `p = popcount / m` is the
binary Shannon entropy of `p` (Mathlib's `binEntropy`, taken in base 2); it lies
in `[0, 1]`, and it is 0 when `p = 0` or `p = 1`. -/
theorem entropy_term_is_shannon (s : mpz_bin) (hm : 1 ≤ s.len) (hu : s.len < UINT_MOD)
    (hv : s.i < 2 ^ s.len) :
    entropy_term s = some (shannonH ((mpz_popcount s.i : ℝ) / (s.len : ℝ))) ∧
    shannonH ((mpz_popcount s.i : ℝ) / (s.len : ℝ))
      = Real.binEntropy ((mpz_popcount s.i : ℝ) / (s.len : ℝ)) / Real.log 2 ∧
    0 ≤ shannonH ((mpz_popcount s.i : ℝ) / (s.len : ℝ)) ∧
    shannonH ((mpz_popcount s.i : ℝ) / (s.len : ℝ)) ≤ 1 ∧
    ((mpz_popcount s.i : ℝ) / (s.len : ℝ) = 0 ∨ (mpz_popcount s.i : ℝ) / (s.len : ℝ) = 1 →
      entropy_term s = some 0) := by
  have hd : DensityOk s := densityOk_of_inRange s hm hu hv
  have he := entropy_term_of_densityOk s hd
  rw [ones_eq_popcount s hu hv] at he
  have hlenR : (0 : ℝ) < (s.len : ℝ) := by exact_mod_cast hm
  have hp0 : (0 : ℝ) ≤ (mpz_popcount s.i : ℝ) / (s.len : ℝ) := by positivity
  have hp1 : (mpz_popcount s.i : ℝ) / (s.len : ℝ) ≤ 1 := by
    rw [div_le_one hlenR]; exact_mod_cast mpz_popcount_le _ _ hv
  refine ⟨he, shannonH_eq_binEntropy _, shannonH_nonneg _ hp0 hp1, shannonH_le_one _, ?_⟩
  intro h
  rw [he]
  rcases h with h | h <;> rw [h]
  · rw [shannonH_zero]
  · rw [shannonH_one]

theorem entropy_term_is_shannon_witness :
    entropy_term ⟨0b0110, 4⟩ = some (shannonH ((mpz_popcount 0b0110 : ℝ) / ((4 : Nat) : ℝ))) :=
  (entropy_term_is_shannon ⟨0b0110, 4⟩ (by decide) (by decide) (by decide)).1

/-- C16, as stated, fails on the string of length 4 and value `0x16`, which is
not below `2 ^ 4`: the first pass is made (3 set bits out of 4), the second
string of the chain has value `0x1d` and length 3, so 4 set bits out of 3, and
GMP stops both loops in their second pass.  Neither loop makes 3 passes, with
any fuel, and neither function returns. -/
theorem out_of_range_value_stops_loops_early :
    2 ≤ (⟨0x16, 4⟩ : mpz_bin).len ∧
    mpz_bin_d_k ⟨0x16, 4⟩ 1 = ⟨0x1d, 3⟩ ∧
    bien_for ⟨0x16, 4⟩ 1 = .ok none ∧ tbien_for ⟨0x16, 4⟩ 1 = .ok none ∧
    bien_for ⟨0x16, 4⟩ 3 = .error .invalidOperation ∧
    tbien_for ⟨0x16, 4⟩ 3 = .error .invalidOperation ∧
    (∀ fuel st, bien_for ⟨0x16, 4⟩ fuel ≠ .ok (some (st, 4 - 1))) ∧
    (∀ fuel st, tbien_for ⟨0x16, 4⟩ fuel ≠ .ok (some (st, 4 - 1))) ∧
    bien ⟨0x16, 4⟩ = .error .invalidOperation ∧
    tbien ⟨0x16, 4⟩ = .error .invalidOperation := by
  have hd : ∀ i, i < 1 → DensityOk (mpz_bin_d_k ⟨0x16, 4⟩ i) := by
    intro i hi
    obtain rfl : i = 0 := by omega
    decide
  have hbad : ¬ DensityOk (mpz_bin_d_k ⟨0x16, 4⟩ 1) := by decide
  obtain ⟨h1, h2⟩ := loops_abort ⟨0x16, 4⟩ (by decide) (by decide) 1 (by decide) hd hbad
  refine ⟨by decide, by decide, (h2 1 le_rfl).1, (h2 1 le_rfl).2, (h1 3 (by decide)).1,
    (h1 3 (by decide)).2, ?_, ?_, bien_of_chain_fault _ (by decide) ⟨1, by decide, hbad⟩,
    tbien_of_chain_fault _ (by decide) ⟨1, by decide, hbad⟩⟩
  · intro fuel st h
    by_cases hf : 1 < fuel
    · rw [(h1 fuel hf).1] at h; cases h
    · rw [(h2 fuel (by omega)).1] at h; cases h
  · intro fuel st h
    by_cases hf : 1 < fuel
    · rw [(h1 fuel hf).2] at h; cases h
    · rw [(h2 fuel (by omega)).2] at h; cases h

/-- C16, amended: for every input of length `n ≥ 2`, whatever its value, each
loop stops within `n - 1` passes; on an input whose value is below `2 ^ n` it
makes exactly `n - 1` passes and leaves the sum that the final division uses.
For every value, the `k`-th string of the chain, the one pass `k` works on, has
length `n - k ≥ 2`, so the bit that `mpz_bin_d` clears has an index of at least
1 and the division `ones / len` is not by zero. -/
theorem loops_make_n_minus_one_passes (s : mpz_bin) (hn : 2 ≤ s.len) (hu : s.len < UINT_MOD) :
    (∀ fuel, s.len - 1 ≤ fuel → bien_for s fuel ≠ .ok none ∧ tbien_for s fuel ≠ .ok none) ∧
    (s.i < 2 ^ s.len → ∀ fuel, s.len - 1 ≤ fuel →
      (∃ T : ℝ, bien_for s fuel
          = .ok (some ((s.len - 1, mpz_bin_d_k s (s.len - 1), T), s.len - 1)) ∧
        bien s = .ok (T / (2 ^ (s.len - 1) - 1))) ∧
      (∃ T L : ℝ, tbien_for s fuel
          = .ok (some ((s.len - 1, mpz_bin_d_k s (s.len - 1), T, L), s.len - 1)) ∧
        tbien s = .ok (T / L))) ∧
    (∀ k, k < s.len - 1 →
      (mpz_bin_d_k s k).len = s.len - k ∧ 2 ≤ (mpz_bin_d_k s k).len ∧
      1 ≤ usub (mpz_bin_d_k s k).len 1 ∧
      ddiv (ones (mpz_bin_d_k s k) : ℝ) ((mpz_bin_d_k s k).len : ℝ)
        = some ((ones (mpz_bin_d_k s k) : ℝ) / ((mpz_bin_d_k s k).len : ℝ))) := by
  have hb : usub s.len 1 = s.len - 1 := usub_one_eq (by omega)
  refine ⟨fun fuel hf => loops_terminate s hu fuel (by omega), ?_, ?_⟩
  · intro hv fuel hf
    have hd : ∀ i, i < s.len - 1 → DensityOk (mpz_bin_d_k s i) :=
      fun i hi => chain_densityOk s hu hv i (by omega)
    obtain ⟨f, rfl⟩ : ∃ f, fuel = (s.len - 1) + f := ⟨fuel - (s.len - 1), by omega⟩
    have hexit : loop_cond s (s.len - 1) = false := by
      simp [loop_cond, hb]
    constructor
    · refine ⟨_, ?_, bien_of_chain_ok s hn hd⟩
      rw [bien_for_passes s (by omega) hu (s.len - 1) le_rfl hd f]
      exact for_loop_exit _ _ _ _ _ hexit
    · refine ⟨_, _, ?_, tbien_of_chain_ok s hn hu hd⟩
      rw [tbien_for_passes s (by omega) hu (s.len - 1) le_rfl hd f]
      exact for_loop_exit _ _ _ _ _ hexit
  · intro k hk
    have hl := chain_len s k (by omega)
    have hne : ((mpz_bin_d_k s k).len : ℝ) ≠ 0 := by
      have : 0 < (mpz_bin_d_k s k).len := by omega
      positivity
    refine ⟨hl, by omega, ?_, by simp [ddiv, hne]⟩
    rw [usub_one_eq (by omega)]
    omega

theorem loops_make_n_minus_one_passes_witness :
    ∃ T : ℝ, bien_for ⟨0xb, 4⟩ 3
        = .ok (some ((4 - 1, mpz_bin_d_k ⟨0xb, 4⟩ (4 - 1), T), 4 - 1)) ∧
      bien ⟨0xb, 4⟩ = .ok (T / (2 ^ (4 - 1) - 1)) :=
  ((loops_make_n_minus_one_passes ⟨0xb, 4⟩ (by decide) (by decide)).2.1
    (by decide) 3 (by decide)).1

/-! ## The Python adapter -/

theorem mpz_import_foldl (b : List (Fin 256)) : ∀ acc : Nat,
    b.foldl (fun acc x => acc * 256 + x.val) acc = acc * 256 ^ b.length + mpz_import b := by
  induction b with
  | nil => intro acc; simp [mpz_import]
  | cons x rest ih =>
    intro acc
    unfold mpz_import
    simp only [List.foldl_cons, List.length_cons]
    rw [ih, ih (0 * 256 + x.val)]
    ring

theorem mpz_import_cons (x : Fin 256) (rest : List (Fin 256)) :
    mpz_import (x :: rest) = x.val * 256 ^ rest.length + mpz_import rest := by
  have := mpz_import_foldl rest (0 * 256 + x.val)
  unfold mpz_import at *
  simp only [List.foldl_cons]
  rw [this]
  ring

theorem mpz_import_lt (b : List (Fin 256)) : mpz_import b < 2 ^ (8 * b.length) := by
  have e : ∀ n, 2 ^ (8 * n) = 256 ^ n := fun n => by rw [pow_mul]; norm_num
  rw [e]
  induction b with
  | nil => simp [mpz_import]
  | cons x rest ih =>
    rw [mpz_import_cons, List.length_cons, pow_succ]
    have hx : x.val < 256 := x.isLt
    have h1 : x.val * 256 ^ rest.length ≤ 255 * 256 ^ rest.length :=
      Nat.mul_le_mul_right _ (by omega)
    omega

theorem to_unsigned_small (n : Nat) (h : n < UINT_MOD) : to_unsigned (n : Int) = n := by
  unfold to_unsigned
  rw [Int.emod_eq_of_lt (by omega) (by exact_mod_cast h)]
  simp

/-- The adapter on inputs of fewer than `2 ^ 32` bits: what it hands to the
C function. -/
theorem wrapper_below_range {α : Type} (f : mpz_bin → α) :
    (∀ b : List (Fin 256), b ≠ [] → 8 * b.length < UINT_MOD →
      bientropy_wrapper f (some (.bytes b)) = .ok (f ⟨mpz_import b, 8 * b.length⟩) ∧
      mpz_import b < 2 ^ (8 * b.length)) ∧
    (∀ (bytestr : List (Fin 256)) (L : Nat), 0 < L → L < UINT_MOD →
      L ≤ 8 * bytestr.length → bytestr.length ≤ L / 8 + 1 →
      bientropy_wrapper f (some (.bitseq (some (some bytestr)) L))
        = .ok (f ⟨mpz_import bytestr / 2 ^ (8 * bytestr.length - L), L⟩) ∧
      mpz_import bytestr / 2 ^ (8 * bytestr.length - L) < 2 ^ L ∧
      ∀ j, (mpz_import bytestr / 2 ^ (8 * bytestr.length - L)).testBit j
        = (mpz_import bytestr).testBit (8 * bytestr.length - L + j)) ∧
    (bientropy_wrapper f (some (.bytes [])) = .error .ValueError ∧
      ∀ (tobytes : Option (Option (List (Fin 256)))),
        ∃ e, bientropy_wrapper f (some (.bitseq tobytes 0)) = .error e) := by
  refine ⟨?_, ?_, ?_, ?_⟩
  · intro b hb hlen
    refine ⟨?_, mpz_import_lt b⟩
    have e1 : ((b.length : Int) * 8) = ((8 * b.length : Nat) : Int) := by push_cast; ring
    have hpos : 0 < b.length := List.length_pos.mpr hb
    have hne : 8 * b.length ≠ 0 := by omega
    simp only [bientropy_wrapper, e1, to_unsigned_small _ hlen, hne, if_false]
  · intro bytestr L hL hu h1 h2
    have hslack : 8 * bytestr.length - L < UINT_MOD := by
      have : 8 * bytestr.length - L ≤ 8 := by omega
      have : (8 : Nat) < UINT_MOD := by decide
      omega
    have e1 : ((bytestr.length : Int) * 8 - (L : Int))
        = ((8 * bytestr.length - L : Nat) : Int) := by
      rw [Nat.cast_sub h1]; push_cast; ring
    have hc : ¬ (bytestr.length * 8 < L ∨ bytestr.length > L / 8 + 1) := by omega
    have hne : L ≠ 0 := by omega
    refine ⟨?_, ?_, ?_⟩
    · simp only [bientropy_wrapper, e1, to_unsigned_small _ hslack, to_unsigned_small _ hu,
        hc, if_false, hne, mpz_tdiv_q_2exp]
    · rw [Nat.div_lt_iff_lt_mul (Nat.two_pow_pos _), ← pow_add]
      have e : L + (8 * bytestr.length - L) = 8 * bytestr.length := by omega
      rw [e]
      exact mpz_import_lt bytestr
    · intro j
      rw [← Nat.shiftRight_eq_div_pow, Nat.testBit_shiftRight]
  · simp [bientropy_wrapper, mpz_import, to_unsigned]
  · intro tobytes
    rcases tobytes with _ | _ | bytestr
    · exact ⟨_, rfl⟩
    · exact ⟨_, rfl⟩
    · by_cases hc : bytestr.length * 8 < 0 ∨ bytestr.length > 0 / 8 + 1
      · exact ⟨.TypeError, by simp only [bientropy_wrapper, hc, if_true]⟩
      · refine ⟨.ValueError, ?_⟩
        have h0 : to_unsigned ((0 : Nat) : Int) = 0 := to_unsigned_small 0 (by decide)
        simp only [bientropy_wrapper, hc, if_false, h0, if_true]

/-- The adapter on a bytes object: the test on the stored length decides. -/
theorem wrapper_bytes {α : Type} (f : mpz_bin → α) (b : List (Fin 256)) :
    bientropy_wrapper f (some (.bytes b))
      = if to_unsigned ((b.length : Int) * 8) = 0 then .error .ValueError
        else .ok (f ⟨mpz_import b, to_unsigned ((b.length : Int) * 8)⟩) := by
  simp only [bientropy_wrapper]

/-- C17 (the adapter on a long input): a bytes object of `2 ^ 29` zero bytes,
which holds `2 ^ 32` bits, is rejected as having length zero, and a bytes
object of `2 ^ 29 + 1` bytes `0xff` reaches the C function with the length 8
and a value that is not below `2 ^ 8`: the length `8 * B` is cut down to 32
bits when it is stored in the `unsigned` field. -/
theorem wrapper_truncates_long_input :
    bientropy_wrapper (fun x => x) (some (.bytes (List.replicate (2 ^ 29) 0)))
      = .error .ValueError ∧
    ∃ v, bientropy_wrapper (fun x => x) (some (.bytes (List.replicate (2 ^ 29 + 1) 255)))
      = .ok ⟨v, 8⟩ ∧ 2 ^ 8 ≤ v := by
  have t1 : to_unsigned (((2 ^ 29 : Nat) : Int) * 8) = 0 := by decide
  have t2 : to_unsigned (((2 ^ 29 + 1 : Nat) : Int) * 8) = 8 := by decide
  have key : ∀ n : Nat, 1 ≤ n → ∀ rest : List (Fin 256), rest.length = n →
      2 ^ 8 ≤ mpz_import ((255 : Fin 256) :: rest) := by
    intro n hn rest hr
    rw [mpz_import_cons, hr]
    have h1 : 256 ^ 1 ≤ 256 ^ n := Nat.pow_le_pow_right (by norm_num) hn
    have h2 : ((255 : Fin 256) : Nat) = 255 := rfl
    rw [h2]
    have h3 : 255 * 256 ^ 1 ≤ 255 * 256 ^ n := Nat.mul_le_mul_left _ h1
    omega
  constructor
  · rw [wrapper_bytes, List.length_replicate, t1, if_pos rfl]
  · refine ⟨mpz_import (List.replicate (2 ^ 29 + 1) 255), ?_, ?_⟩
    · rw [wrapper_bytes, List.length_replicate, t2, if_neg (by decide)]
    · rw [List.replicate_succ]
      exact key (2 ^ 29) (by norm_num) _ (List.length_replicate _ _)

/-! ## Symmetries and the zero score -/

theorem shannonH_one_sub (p : ℝ) : shannonH (1 - p) = shannonH p := by
  rw [shannonH_eq_binEntropy, shannonH_eq_binEntropy, Real.binEntropy_one_sub]

theorem shannonH_pos (p : ℝ) (h0 : 0 < p) (h1 : p < 1) : 0 < shannonH p := by
  rw [shannonH_eq_binEntropy]
  exact div_pos (Real.binEntropy_pos h0 h1) (Real.log_pos (by norm_num))

/-- Two in-range strings of one length whose chains have the same entropies
get the same scores. -/
theorem aggregators_congr (s s' : mpz_bin) (hn : 2 ≤ s.len) (hu : s.len < UINT_MOD)
    (hl : s'.len = s.len) (hs : InRange s) (hs' : InRange s')
    (h : ∀ k, k < s.len - 1 → chain_entropy s' k = chain_entropy s k) :
    bien s' = bien s ∧ tbien s' = tbien s := by
  have hd : ∀ j, j < s.len - 1 → DensityOk (mpz_bin_d_k s j) :=
    fun j hj => chain_densityOk s hu hs j (by omega)
  have hd' : ∀ j, j < s'.len - 1 → DensityOk (mpz_bin_d_k s' j) :=
    fun j hj => chain_densityOk s' (by omega) hs' j (by omega)
  rw [bien_of_chain_ok s hn hd, bien_of_chain_ok s' (by omega) hd',
    tbien_of_chain_ok s hn hu hd, tbien_of_chain_ok s' (by omega) (by omega) hd']
  unfold bien_chain tbien_chain
  rw [hl]
  constructor
  · congr 2
    exact Finset.sum_congr rfl (fun k hk => by rw [h k (Finset.mem_range.mp hk)])
  · congr 2
    exact Finset.sum_congr rfl (fun k hk => by rw [h k (Finset.mem_range.mp hk)])

theorem chain_entropy_compl (s : mpz_bin) (hn : 1 ≤ s.len) (hu : s.len < UINT_MOD)
    (hs : InRange s) (k : Nat) :
    chain_entropy (mpz_bin_compl s) k = chain_entropy s k := by
  have hs' : InRange (mpz_bin_compl s) := by
    unfold InRange mpz_bin_compl at *
    simp only
    omega
  rcases k with _ | k
  · unfold chain_entropy
    simp only [mpz_bin_d_k]
    rw [ones_eq_popcount _ hu hs, ones_eq_popcount (mpz_bin_compl s) hu hs']
    have hsum := popcount_compl s.len s.i hs
    have hne : (s.len : ℝ) ≠ 0 := by
      have : 0 < s.len := hn
      positivity
    have e : ((mpz_popcount (mpz_bin_compl s).i : ℝ)) / ((mpz_bin_compl s).len : ℝ)
        = 1 - (mpz_popcount s.i : ℝ) / (s.len : ℝ) := by
      have h2 : (mpz_popcount (mpz_bin_compl s).i : ℝ) + (mpz_popcount s.i : ℝ)
          = (s.len : ℝ) := by exact_mod_cast hsum
      change (mpz_popcount (mpz_bin_compl s).i : ℝ) / (s.len : ℝ) = _
      field_simp
      linarith
    rw [e, shannonH_one_sub]
  · unfold chain_entropy
    rw [← mpz_bin_d_k_succ_left, ← mpz_bin_d_k_succ_left, mpz_bin_d_compl s hn hs]

theorem mpz_bin_d_k_rev (s : mpz_bin) : ∀ k, k ≤ s.len →
    mpz_bin_d_k (mpz_bin_rev s) k = mpz_bin_rev (mpz_bin_d_k s k) := by
  intro k
  induction k with
  | zero => intro _; rfl
  | succ k ih =>
    intro hk
    have hl := chain_len s k (by omega)
    change mpz_bin_d (mpz_bin_d_k (mpz_bin_rev s) k) = mpz_bin_rev (mpz_bin_d (mpz_bin_d_k s k))
    rw [ih (by omega), mpz_bin_d_rev _ (by omega)]

theorem chain_entropy_rev (s : mpz_bin) (hu : s.len < UINT_MOD) (hs : InRange s) (k : Nat)
    (hk : k < s.len) :
    chain_entropy (mpz_bin_rev s) k = chain_entropy s k := by
  obtain ⟨hl, hr⟩ := chain_invariant s hs k hk
  have hr' : InRange (mpz_bin_rev (mpz_bin_d_k s k)) := bit_reverse_lt _ _
  unfold chain_entropy
  rw [mpz_bin_d_k_rev s k (by omega), ones_eq_popcount _ (by omega) hr,
    ones_eq_popcount (mpz_bin_rev (mpz_bin_d_k s k)) (by change (mpz_bin_d_k s k).len < _; omega)
      hr']
  change shannonH (((mpz_popcount (bit_reverse (mpz_bin_d_k s k).len (mpz_bin_d_k s k).i)
    : Nat) : ℝ) / ((mpz_bin_d_k s k).len : ℝ)) = _
  rw [popcount_bit_reverse _ _ hr]

/-- The score of a string that is not constant is positive. -/
theorem aggregators_pos (s : mpz_bin) (hn : 2 ≤ s.len) (hu : s.len < UINT_MOD)
    (hs : InRange s) (h0 : s.i ≠ 0) (h1 : s.i ≠ 2 ^ s.len - 1) :
    ∃ b t : ℝ, bien s = .ok b ∧ tbien s = .ok t ∧ 0 < b ∧ 0 < t := by
  have hd : ∀ j, j < s.len - 1 → DensityOk (mpz_bin_d_k s j) :=
    fun j hj => chain_densityOk s hu hs j (by omega)
  have hc0 : 0 < mpz_popcount s.i :=
    Nat.pos_of_ne_zero (fun h => h0 (popcount_sum_eq_zero _ _ hs h))
  have hc1 : mpz_popcount s.i < s.len :=
    lt_of_le_of_ne (mpz_popcount_le _ _ hs) (fun h => h1 (popcount_sum_eq_len _ _ hs h))
  have hlenR : (0 : ℝ) < (s.len : ℝ) := by
    have : 0 < s.len := by omega
    positivity
  have hfirst : 0 < chain_entropy s 0 := by
    unfold chain_entropy
    simp only [mpz_bin_d_k]
    rw [ones_eq_popcount s hu hs]
    apply shannonH_pos
    · have : (0 : ℝ) < (mpz_popcount s.i : ℝ) := by exact_mod_cast hc0
      positivity
    · rw [div_lt_one hlenR]; exact_mod_cast hc1
  have hmem : 0 ∈ Finset.range (s.len - 1) := Finset.mem_range.mpr (by omega)
  have hpow : (2 : ℝ) ≤ 2 ^ (s.len - 1) := by
    calc (2 : ℝ) = 2 ^ 1 := by norm_num
      _ ≤ 2 ^ (s.len - 1) := pow_le_pow_right₀ (by norm_num) (by omega)
  have hL : (1 : ℝ) ≤ tbien_L s.len := log_weights_ge_one _ (by omega)
  refine ⟨_, _, bien_of_chain_ok s hn hd, tbien_of_chain_ok s hn hu hd, ?_, ?_⟩
  · unfold bien_chain
    apply div_pos _ (by linarith)
    have hle := Finset.single_le_sum
      (f := fun k => chain_entropy s k * (2 : ℝ) ^ k)
      (fun k hk => mul_nonneg (chain_entropy_nonneg s k (hd k (Finset.mem_range.mp hk)))
        (by positivity)) hmem
    simp only [pow_zero, mul_one] at hle
    linarith
  · unfold tbien_chain
    apply div_pos _ (by linarith)
    have hle := Finset.single_le_sum
      (f := fun k : Nat => chain_entropy s k * Real.logb 2 ((k : ℝ) + 2))
      (fun k hk => mul_nonneg (chain_entropy_nonneg s k (hd k (Finset.mem_range.mp hk)))
        (logb_weight_nonneg k)) hmem
    have e : Real.logb 2 (((0 : Nat) : ℝ) + 2) = 1 := by simp [Real.logb_self_eq_one]
    simp only [e, mul_one] at hle
    linarith

/-! ## The claims on the symmetries and on the zero score -/

/-- C18: complement invariance.  For every bit string `s` of length `n ≥ 2`
with value below `2 ^ n`, flipping every bit (value `2^n - 1 - s.i`) leaves
`mpz_bin_d` unchanged, and leaves `bien` and `tbien` unchanged.  The pairs
`0x3/0xc`, `0x1/0xe` and `0x5/0xa` of the demo table (length 4) are such pairs
and carry equal expected values. -/
theorem complement_invariance :
    (∀ s : mpz_bin, 2 ≤ s.len → s.len < UINT_MOD → s.i < 2 ^ s.len →
      mpz_bin_d ⟨2 ^ s.len - 1 - s.i, s.len⟩ = mpz_bin_d s ∧
      bien ⟨2 ^ s.len - 1 - s.i, s.len⟩ = bien s ∧
      tbien ⟨2 ^ s.len - 1 - s.i, s.len⟩ = tbien s) ∧
    (demo_row 5 = ⟨0x3, 4⟩ ∧ demo_row 8 = ⟨0xc, 4⟩ ∧ demo_row 6 = ⟨0x1, 4⟩ ∧
      demo_row 11 = ⟨0xe, 4⟩ ∧ demo_row 14 = ⟨0x5, 4⟩ ∧ demo_row 19 = ⟨0xa, 4⟩) ∧
    (∀ p ∈ [(5, 8), (6, 11), (14, 19)],
      demo_row p.2 = ⟨2 ^ 4 - 1 - (demo_row p.1).i, 4⟩ ∧
      biens.getD p.1 0 = biens.getD p.2 1 ∧ tbiens.getD p.1 0 = tbiens.getD p.2 1) := by
  refine ⟨?_, ⟨rfl, rfl, rfl, rfl, rfl, rfl⟩, ?_⟩
  · intro s hn hu hv
    have hs' : InRange (mpz_bin_compl s) := by
      unfold InRange mpz_bin_compl
      simp only
      omega
    exact ⟨mpz_bin_d_compl s (by omega) hv,
      aggregators_congr s (mpz_bin_compl s) hn hu rfl hv hs'
        (fun k _ => chain_entropy_compl s (by omega) hu hv k)⟩
  · intro p hp
    simp only [List.mem_cons, List.mem_singleton, List.not_mem_nil, or_false] at hp
    rcases hp with rfl | rfl | rfl
    · exact ⟨rfl, by norm_num [biens], by norm_num [tbiens]⟩
    · exact ⟨rfl, by norm_num [biens], by norm_num [tbiens]⟩
    · exact ⟨rfl, by norm_num [biens], by norm_num [tbiens]⟩

theorem complement_invariance_witness :
    mpz_bin_d ⟨2 ^ 4 - 1 - 0x3, 4⟩ = mpz_bin_d ⟨0x3, 4⟩ ∧
    bien ⟨2 ^ 4 - 1 - 0x3, 4⟩ = bien ⟨0x3, 4⟩ ∧
    tbien ⟨2 ^ 4 - 1 - 0x3, 4⟩ = tbien ⟨0x3, 4⟩ :=
  complement_invariance.1 ⟨0x3, 4⟩ (by decide) (by decide) (by decide)

/-- C19: reversal invariance.  For every bit string `s` of length `n ≥ 2` with
value below `2 ^ n`, the derivative of the reversed string is the reversed
derivative, and `bien` and `tbien` give the reversed string the same score;
`mpz_bin_rev s` has the length of `s` and its bit `j` is bit `n - 1 - j` of
`s`.  The pairs `0x1/0x8`, `0x2/0x4` and `0x7/0xe` of the demo table (length 4)
are such pairs and carry equal expected values. -/
theorem reversal_invariance :
    (∀ s : mpz_bin, 2 ≤ s.len → s.len < UINT_MOD → s.i < 2 ^ s.len →
      mpz_bin_d (mpz_bin_rev s) = mpz_bin_rev (mpz_bin_d s) ∧
      bien (mpz_bin_rev s) = bien s ∧ tbien (mpz_bin_rev s) = tbien s) ∧
    (∀ (s : mpz_bin) (j : Nat), (mpz_bin_rev s).len = s.len ∧
      (mpz_bin_rev s).i.testBit j = (decide (j < s.len) && s.i.testBit (s.len - 1 - j))) ∧
    (demo_row 6 = ⟨0x1, 4⟩ ∧ demo_row 16 = ⟨0x8, 4⟩ ∧ demo_row 7 = ⟨0x2, 4⟩ ∧
      demo_row 12 = ⟨0x4, 4⟩ ∧ demo_row 13 = ⟨0x7, 4⟩ ∧ demo_row 11 = ⟨0xe, 4⟩) ∧
    (∀ p ∈ [(6, 16), (7, 12), (13, 11)],
      demo_row p.2 = mpz_bin_rev (demo_row p.1) ∧
      biens.getD p.1 0 = biens.getD p.2 1 ∧ tbiens.getD p.1 0 = tbiens.getD p.2 1) := by
  refine ⟨?_, fun s j => ⟨rfl, testBit_bit_reverse _ _ _⟩, ⟨rfl, rfl, rfl, rfl, rfl, rfl⟩, ?_⟩
  · intro s hn hu hv
    exact ⟨mpz_bin_d_rev s (by omega),
      aggregators_congr s (mpz_bin_rev s) hn hu rfl hv (bit_reverse_lt _ _)
        (fun k hk => chain_entropy_rev s hu hv k (by omega))⟩
  · intro p hp
    simp only [List.mem_cons, List.mem_singleton, List.not_mem_nil, or_false] at hp
    rcases hp with rfl | rfl | rfl
    · exact ⟨by decide, by norm_num [biens], by norm_num [tbiens]⟩
    · exact ⟨by decide, by norm_num [biens], by norm_num [tbiens]⟩
    · exact ⟨by decide, by norm_num [biens], by norm_num [tbiens]⟩

theorem reversal_invariance_witness :
    mpz_bin_rev ⟨0x1, 4⟩ = ⟨0x8, 4⟩ ∧
    mpz_bin_d (mpz_bin_rev ⟨0x1, 4⟩) = mpz_bin_rev (mpz_bin_d ⟨0x1, 4⟩) ∧
    bien (mpz_bin_rev ⟨0x1, 4⟩) = bien ⟨0x1, 4⟩ ∧
    tbien (mpz_bin_rev ⟨0x1, 4⟩) = tbien ⟨0x1, 4⟩ :=
  ⟨by decide, reversal_invariance.1 ⟨0x1, 4⟩ (by decide) (by decide) (by decide)⟩

/-- C20: zero characterises the constant strings.  For every bit string `s`
of length `n ≥ 2` with value below `2 ^ n`, `bien s` is 0 exactly when `s` is
all-zero or all-one, and so is `tbien s`; on every other string both scores are
strictly positive. -/
theorem zero_iff_constant (s : mpz_bin) (hn : 2 ≤ s.len) (hu : s.len < UINT_MOD)
    (hv : s.i < 2 ^ s.len) :
    (bien s = .ok 0 ↔ s.i = 0 ∨ s.i = 2 ^ s.len - 1) ∧
    (tbien s = .ok 0 ↔ s.i = 0 ∨ s.i = 2 ^ s.len - 1) ∧
    (s.i ≠ 0 → s.i ≠ 2 ^ s.len - 1 →
      ∃ b t : ℝ, bien s = .ok b ∧ tbien s = .ok t ∧ 0 < b ∧ 0 < t) := by
  obtain ⟨hz1, ho1, hz2, ho2⟩ := constant_strings_zero s.len hn hu
  have hconst : s.i = 0 ∨ s.i = 2 ^ s.len - 1 → bien s = .ok 0 ∧ tbien s = .ok 0 := by
    intro h
    rcases h with h | h
    · have e : s = ⟨0, s.len⟩ := by rw [← h]
      rw [e]; exact ⟨hz1, hz2⟩
    · have e : s = ⟨2 ^ s.len - 1, s.len⟩ := by rw [← h]
      rw [e]; exact ⟨ho1, ho2⟩
  refine ⟨⟨?_, fun h => (hconst h).1⟩, ⟨?_, fun h => (hconst h).2⟩,
    fun h0 h1 => aggregators_pos s hn hu hv h0 h1⟩
  · intro hb
    by_contra hc
    push_neg at hc
    obtain ⟨b, t, hb', _, hpos, _⟩ := aggregators_pos s hn hu hv hc.1 hc.2
    rw [hb'] at hb
    have : b = 0 := by injection hb
    linarith
  · intro ht
    by_contra hc
    push_neg at hc
    obtain ⟨b, t, _, ht', _, hpos⟩ := aggregators_pos s hn hu hv hc.1 hc.2
    rw [ht'] at ht
    have : t = 0 := by injection ht
    linarith

theorem zero_iff_constant_witness :
    ∃ b t : ℝ, bien ⟨0x5, 4⟩ = .ok b ∧ tbien ⟨0x5, 4⟩ = .ok t ∧ 0 < b ∧ 0 < t :=
  (zero_iff_constant ⟨0x5, 4⟩ (by decide) (by decide) (by decide)).2.2
    (by decide) (by decide)

/-! ## The maximum score -/

theorem shannonH_lt_one (p : ℝ) (h : p ≠ 2⁻¹) : shannonH p < 1 := by
  rw [shannonH_eq_binEntropy, div_lt_one (Real.log_pos (by norm_num))]
  exact Real.binEntropy_lt_log_two.mpr h

/-- A string of odd length in range does not have density one half, so its
entropy is below one. -/
theorem chain_entropy_lt_one_of_odd (s : mpz_bin) (hu : s.len < UINT_MOD) (hs : InRange s)
    (k : Nat) (hk : k < s.len) (hodd : (mpz_bin_d_k s k).len % 2 = 1) :
    2 * mpz_popcount (mpz_bin_d_k s k).i ≠ (mpz_bin_d_k s k).len ∧ chain_entropy s k < 1 := by
  obtain ⟨hl, hr⟩ := chain_invariant s hs k hk
  have hne : 2 * mpz_popcount (mpz_bin_d_k s k).i ≠ (mpz_bin_d_k s k).len := by omega
  refine ⟨hne, ?_⟩
  unfold chain_entropy
  rw [ones_eq_popcount _ (by omega) hr]
  apply shannonH_lt_one
  intro hc
  have hlen : ((mpz_bin_d_k s k).len : ℝ) ≠ 0 := by
    have : 0 < (mpz_bin_d_k s k).len := by omega
    positivity
  rw [div_eq_iff hlen] at hc
  have h2 : (2 : ℝ) * (mpz_popcount (mpz_bin_d_k s k).i : ℝ) = ((mpz_bin_d_k s k).len : ℝ) := by
    rw [hc]; ring
  exact hne (by exact_mod_cast h2)

/-- Both scores of an in-range string of length at least three are below one. -/
theorem aggregators_lt_one (s : mpz_bin) (hn : 3 ≤ s.len) (hu : s.len < UINT_MOD)
    (hs : InRange s) :
    ∃ b t : ℝ, bien s = .ok b ∧ tbien s = .ok t ∧ b < 1 ∧ t < 1 := by
  have hd : ∀ j, j < s.len - 1 → DensityOk (mpz_bin_d_k s j) :=
    fun j hj => chain_densityOk s hu hs j (by omega)
  obtain ⟨k0, hk0, hlt⟩ : ∃ k0, k0 < s.len - 1 ∧ chain_entropy s k0 < 1 := by
    rcases Nat.mod_two_eq_zero_or_one s.len with he | ho
    · have hl := chain_len s 1 (by omega)
      exact ⟨1, by omega, (chain_entropy_lt_one_of_odd s hu hs 1 (by omega) (by omega)).2⟩
    · exact ⟨0, by omega, (chain_entropy_lt_one_of_odd s hu hs 0 (by omega) ho).2⟩
  have hmem : k0 ∈ Finset.range (s.len - 1) := Finset.mem_range.mpr hk0
  have hpow : (2 : ℝ) ≤ 2 ^ (s.len - 1) := by
    calc (2 : ℝ) = 2 ^ 1 := by norm_num
      _ ≤ 2 ^ (s.len - 1) := pow_le_pow_right₀ (by norm_num) (by omega)
  have hL : (1 : ℝ) ≤ tbien_L s.len := log_weights_ge_one _ (by omega)
  have hw : (0 : ℝ) < Real.logb 2 ((k0 : ℝ) + 2) := by
    apply Real.logb_pos (by norm_num)
    have : (0 : ℝ) ≤ (k0 : ℝ) := Nat.cast_nonneg k0
    linarith
  refine ⟨_, _, bien_of_chain_ok s (by omega) hd, tbien_of_chain_ok s (by omega) hu hd, ?_, ?_⟩
  · unfold bien_chain
    rw [div_lt_one (by linarith), ← geom_two]
    apply Finset.sum_lt_sum
    · intro k _
      calc chain_entropy s k * 2 ^ k ≤ 1 * 2 ^ k :=
            mul_le_mul_of_nonneg_right (chain_entropy_le_one s k) (by positivity)
        _ = 2 ^ k := one_mul _
    · refine ⟨k0, hmem, ?_⟩
      calc chain_entropy s k0 * 2 ^ k0 < 1 * 2 ^ k0 :=
            mul_lt_mul_of_pos_right hlt (by positivity)
        _ = 2 ^ k0 := one_mul _
  · unfold tbien_chain
    rw [div_lt_one (by linarith)]
    unfold tbien_L
    apply Finset.sum_lt_sum
    · intro k _
      calc chain_entropy s k * Real.logb 2 ((k : ℝ) + 2) ≤ 1 * Real.logb 2 ((k : ℝ) + 2) :=
            mul_le_mul_of_nonneg_right (chain_entropy_le_one s k) (logb_weight_nonneg k)
        _ = Real.logb 2 ((k : ℝ) + 2) := one_mul _
    · refine ⟨k0, hmem, ?_⟩
      calc chain_entropy s k0 * Real.logb 2 ((k0 : ℝ) + 2)
          < 1 * Real.logb 2 ((k0 : ℝ) + 2) := mul_lt_mul_of_pos_right hlt hw
        _ = Real.logb 2 ((k0 : ℝ) + 2) := one_mul _

/-- C21: the score 1 is reached only at length 2.  For every bit string `s` of
length `n ≥ 3` with value below `2 ^ n`, one of `s` and `mpz_bin_d s` has odd
length, hence a set-bit count that is not half its length, and `bien s < 1` and
`tbien s < 1`.  At length 2 each score is 1 exactly on the inputs `0x1` and
`0x2`. -/
theorem max_score_only_at_length_two :
    (∀ s : mpz_bin, 3 ≤ s.len → s.len < UINT_MOD → s.i < 2 ^ s.len →
      ((s.len % 2 = 1 ∧ 2 * mpz_popcount s.i ≠ s.len) ∨
        ((mpz_bin_d s).len % 2 = 1 ∧
          2 * mpz_popcount (mpz_bin_d s).i ≠ (mpz_bin_d s).len)) ∧
      ∃ b t : ℝ, bien s = .ok b ∧ tbien s = .ok t ∧ b < 1 ∧ t < 1) ∧
    (∀ v : Nat, v < 2 ^ 2 →
      (bien ⟨v, 2⟩ = .ok 1 ↔ v = 0x1 ∨ v = 0x2) ∧
      (tbien ⟨v, 2⟩ = .ok 1 ↔ v = 0x1 ∨ v = 0x2)) := by
  constructor
  · intro s hn hu hv
    refine ⟨?_, aggregators_lt_one s hn hu hv⟩
    rcases Nat.mod_two_eq_zero_or_one s.len with he | ho
    · right
      have hl : (mpz_bin_d s).len = s.len - 1 := chain_len s 1 (by omega)
      have hodd : (mpz_bin_d_k s 1).len % 2 = 1 := by
        change (mpz_bin_d s).len % 2 = 1
        omega
      exact ⟨hodd, (chain_entropy_lt_one_of_odd s hu hv 1 (by omega) hodd).1⟩
    · left
      exact ⟨ho, (chain_entropy_lt_one_of_odd s hu hv 0 (by omega) ho).1⟩
  · obtain ⟨⟨b0, b1, b2, b3⟩, ⟨t0, t1, t2, t3⟩⟩ := len2_values
    have hne : (Except.ok (0 : ℝ) : Except GmpFault ℝ) ≠ .ok 1 := by
      intro h
      have : (0 : ℝ) = 1 := by injection h
      norm_num at this
    intro v hv
    have hv4 : v < 4 := hv
    interval_cases v
    · rw [b0, t0]
      exact ⟨⟨fun h => absurd h hne, fun h => by omega⟩,
        ⟨fun h => absurd h hne, fun h => by omega⟩⟩
    · rw [b1, t1]
      exact ⟨⟨fun _ => Or.inl rfl, fun _ => rfl⟩, ⟨fun _ => Or.inl rfl, fun _ => rfl⟩⟩
    · rw [b2, t2]
      exact ⟨⟨fun _ => Or.inr rfl, fun _ => rfl⟩, ⟨fun _ => Or.inr rfl, fun _ => rfl⟩⟩
    · rw [b3, t3]
      exact ⟨⟨fun h => absurd h hne, fun h => by omega⟩,
        ⟨fun h => absurd h hne, fun h => by omega⟩⟩

theorem max_score_only_at_length_two_witness :
    ((3 % 2 = 1 ∧ 2 * mpz_popcount 0b101 ≠ 3) ∨
      ((mpz_bin_d ⟨0b101, 3⟩).len % 2 = 1 ∧
        2 * mpz_popcount (mpz_bin_d ⟨0b101, 3⟩).i ≠ (mpz_bin_d ⟨0b101, 3⟩).len)) ∧
    ∃ b t : ℝ, bien ⟨0b101, 3⟩ = .ok b ∧ tbien ⟨0b101, 3⟩ = .ok t ∧ b < 1 ∧ t < 1 :=
  max_score_only_at_length_two.1 ⟨0b101, 3⟩ (by decide) (by decide) (by decide)

/-! ## Values that are out of range -/

/-- The entropy of link `k` of the chain in the quantities the loop reads: the
set-bit count stored in the `unsigned` variable `ones` and the length `n - k`. -/
theorem chain_entropy_stored (s : mpz_bin) (k : Nat) (hk : k ≤ s.len) :
    chain_entropy s k
      = shannonH (((mpz_popcount (mpz_bin_d_k s k).i % UINT_MOD : Nat) : ℝ)
          / ((s.len - k : Nat) : ℝ)) := by
  unfold chain_entropy ones
  rw [chain_len s k hk]

/-- A string of two bits whose value has `m` set bits, `m` being 1 modulo
`2 ^ 32`: the stored count is 1 and both scores are 1. -/
theorem narrowed_count_scores_one (m : Nat) (hm : m % UINT_MOD = 1) :
    mpz_popcount (2 ^ m - 1) = m ∧
    bien ⟨2 ^ m - 1, 2⟩ = .ok 1 ∧ tbien ⟨2 ^ m - 1, 2⟩ = .ok 1 := by
  have ho : ones ⟨2 ^ m - 1, 2⟩ = 1 := by
    unfold ones
    rw [mpz_popcount_ones, hm]
  obtain ⟨hb, ht⟩ := aggregators_len2 (2 ^ m - 1) 1 ho (by decide)
  have e : shannonH (((1 : Nat) : ℝ) / 2) = 1 := by
    rw [Nat.cast_one, shannonH_half]
  rw [e] at hb ht
  exact ⟨mpz_popcount_ones m, hb, ht⟩

/-- C8, as stated, fails: the value 4 is not below `2 ^ 2`, and both functions
return the number 1 on it at length 2. -/
theorem out_of_range_value_returns_number :
    ¬ ((4 : Nat) < 2 ^ 2) ∧ bien ⟨4, 2⟩ = .ok 1 ∧ tbien ⟨4, 2⟩ = .ok 1 := by
  obtain ⟨hb, ht⟩ := aggregators_len2 4 1 (by decide) (by decide)
  have e : shannonH (((1 : Nat) : ℝ) / 2) = 1 := by
    rw [Nat.cast_one, shannonH_half]
  rw [e] at hb ht
  exact ⟨by decide, hb, ht⟩

/-- C8, amended: for every length `n ≥ 2` and every value `≥ 2^n` the two
functions make no range check and run the same loop on the whole value.  At
step `k` the code stores the set-bit count of the current string in an
`unsigned`, that is modulo `2 ^ 32`.  When at every step `k = 0..n-2` the
stored count is at most the length `n - k`, the functions return the weighted
average of the entropies of the densities `stored count / (n - k)`; when at
some step the stored count is larger than the length, the entropy term is not
a finite number and GMP stops with its invalid-operation fault.  A count above
the length that is stored as a small number goes unnoticed: at length 2 the
value `2 ^ m - 1`, which has `m` set bits, scores 1 for every `m ≥ 3` that is
1 modulo `2 ^ 32`. -/
theorem out_of_range_value_unchecked :
    (∀ s : mpz_bin, 2 ≤ s.len → s.len < UINT_MOD → 2 ^ s.len ≤ s.i →
      ((∀ k, k < s.len - 1 → mpz_popcount (mpz_bin_d_k s k).i % UINT_MOD ≤ s.len - k) →
        bien s = .ok ((∑ k in Finset.range (s.len - 1),
          shannonH (((mpz_popcount (mpz_bin_d_k s k).i % UINT_MOD : Nat) : ℝ)
            / ((s.len - k : Nat) : ℝ)) * 2 ^ k) / (2 ^ (s.len - 1) - 1)) ∧
        tbien s = .ok ((∑ k in Finset.range (s.len - 1),
          shannonH (((mpz_popcount (mpz_bin_d_k s k).i % UINT_MOD : Nat) : ℝ)
            / ((s.len - k : Nat) : ℝ)) * Real.logb 2 ((k : ℝ) + 2))
          / (∑ k in Finset.range (s.len - 1), Real.logb 2 ((k : ℝ) + 2)))) ∧
      ((∃ k, k < s.len - 1 ∧ s.len - k < mpz_popcount (mpz_bin_d_k s k).i % UINT_MOD) →
        bien s = .error .invalidOperation ∧ tbien s = .error .invalidOperation)) ∧
    (∀ m : Nat, 3 ≤ m → m % UINT_MOD = 1 →
      2 ^ 2 ≤ 2 ^ m - 1 ∧ mpz_popcount (2 ^ m - 1) = m ∧
      bien ⟨2 ^ m - 1, 2⟩ = .ok 1 ∧ tbien ⟨2 ^ m - 1, 2⟩ = .ok 1) := by
  constructor
  · intro s hn hu _
    constructor
    · intro h
      have hd : ∀ k, k < s.len - 1 → DensityOk (mpz_bin_d_k s k) := by
        intro k hk
        have hl := chain_len s k (by omega)
        refine ⟨by omega, ?_⟩
        rw [hl]
        exact h k hk
      rw [bien_of_chain_ok s hn hd, tbien_of_chain_ok s hn hu hd]
      unfold bien_chain tbien_chain tbien_L
      constructor
      · congr 2
        exact Finset.sum_congr rfl (fun k hk => by
          rw [chain_entropy_stored s k (by have := Finset.mem_range.mp hk; omega)])
      · congr 2
        exact Finset.sum_congr rfl (fun k hk => by
          rw [chain_entropy_stored s k (by have := Finset.mem_range.mp hk; omega)])
    · rintro ⟨k, hk, hbad⟩
      have hl := chain_len s k (by omega)
      have hnd : ¬ DensityOk (mpz_bin_d_k s k) := by
        intro hd
        have := hd.2
        unfold ones at this
        omega
      exact ⟨bien_of_chain_fault s (by omega) ⟨k, hk, hnd⟩,
        tbien_of_chain_fault s (by omega) ⟨k, hk, hnd⟩⟩
  · intro m hm3 hm
    refine ⟨?_, narrowed_count_scores_one m hm⟩
    have h1 : 2 ^ 3 ≤ 2 ^ m := Nat.pow_le_pow_right (by norm_num) hm3
    omega

theorem out_of_range_value_unchecked_witness :
    (bien ⟨4, 2⟩ = .ok ((∑ k in Finset.range (2 - 1),
        shannonH (((mpz_popcount (mpz_bin_d_k ⟨4, 2⟩ k).i % UINT_MOD : Nat) : ℝ)
          / ((2 - k : Nat) : ℝ)) * 2 ^ k) / (2 ^ (2 - 1) - 1)) ∧
      tbien ⟨4, 2⟩ = .ok ((∑ k in Finset.range (2 - 1),
        shannonH (((mpz_popcount (mpz_bin_d_k ⟨4, 2⟩ k).i % UINT_MOD : Nat) : ℝ)
          / ((2 - k : Nat) : ℝ)) * Real.logb 2 ((k : ℝ) + 2))
        / (∑ k in Finset.range (2 - 1), Real.logb 2 ((k : ℝ) + 2)))) ∧
    (bien ⟨7, 2⟩ = .error .invalidOperation ∧ tbien ⟨7, 2⟩ = .error .invalidOperation) ∧
    (mpz_popcount (2 ^ (2 ^ 32 + 1) - 1) = 2 ^ 32 + 1 ∧
      bien ⟨2 ^ (2 ^ 32 + 1) - 1, 2⟩ = .ok 1 ∧ tbien ⟨2 ^ (2 ^ 32 + 1) - 1, 2⟩ = .ok 1) :=
  ⟨(out_of_range_value_unchecked.1 ⟨4, 2⟩ (by decide) (by decide) (by decide)).1 (by decide),
   (out_of_range_value_unchecked.1 ⟨7, 2⟩ (by decide) (by decide) (by decide)).2
     ⟨0, by decide, by decide⟩,
   (out_of_range_value_unchecked.2 (2 ^ 32 + 1) (by decide) (by decide)).2⟩

end BiEntropy
